import Mathlib

set_option maxHeartbeats 1000000

/-!
Verification of the m3u Go library (github.com/sherif-fanous/m3u): a shallow
embedding of its decoder (`Decode`, `parseEXTM3ULine`, `parseEXTINFLine`,
`readLine`) and encoder (`Encode`) over `List Char` strings, plus theorems
settling the specification claims.

Go byte strings are modelled as `List Char`; `float64` track lengths are
modelled as exact rationals (every claim-relevant value is an exact decimal);
Go's `map[string]string` is modelled as an insertion-ordered association list
(Go map iteration order is unspecified; the claims are stated up to that
order).  Input streams are pure strings, so the only read error is `io.EOF`.
-/

/-- Strings of the Go program, modelled as lists of characters. -/
abbrev Str := List Char

/-- Association lists modelling Go `map[string]string` with insertion order. -/
abbrev AttrMap := List (Str × Str)

/-- Characters treated as whitespace by Go `strings.TrimSpace`
(`unicode.IsSpace`), restricted to ASCII: space, tab, newline, vertical tab,
form feed, carriage return. -/
def isGoSpace (c : Char) : Bool :=
  c = ' ' || c = '\t' || c = '\n' || c = Char.ofNat 11 || c = Char.ofNat 12 || c = '\r'

/-- Characters matched by the regexp class `\s` in Go's regexp package:
`[\t\n\f\r ]`. -/
def isRegexSpace (c : Char) : Bool :=
  c = ' ' || c = '\t' || c = '\n' || c = Char.ofNat 12 || c = '\r'

/-- Go `strings.TrimSpace`: drop leading and trailing whitespace. -/
def trim (l : Str) : Str :=
  ((l.dropWhile isGoSpace).reverse.dropWhile isGoSpace).reverse

/-- Go `strings.HasPrefix p l` (argument order: the prefix first). -/
def strStartsWith : Str → Str → Bool
  | [], _ => true
  | _ :: _, [] => false
  | p :: ps, c :: cs => p = c && strStartsWith ps cs

/-- Split a string at every newline byte, as consecutive calls of
`bufio.Reader.ReadString('\n')` partition the input: `"a\nb\n"` becomes
`["a", "b", ""]` and the final segment is the one whose read reports
`io.EOF`.  Never returns the empty list. -/
def splitOnNl : Str → List Str
  | [] => [[]]
  | c :: cs =>
    if c = '\n' then [] :: splitOnNl cs
    else (c :: (splitOnNl cs).headD []) :: (splitOnNl cs).tail

/-- Number of newline bytes in the input. -/
def countNl (l : Str) : Nat := l.countP (fun c => c = '\n')

/-- Numeric value of a decimal digit character. -/
def digitVal (c : Char) : Nat := c.toNat - 48

/-- Value of a string of decimal digit characters, most significant first. -/
def digitsToNat (l : Str) : Nat := l.foldl (fun a c => 10 * a + digitVal c) 0

/-- Base-10 digits of `n`, least significant first, computed with explicit
fuel (any fuel of at least `n` suffices). -/
def natDigitsRev : Nat → Nat → List Nat
  | 0, _ => []
  | fuel + 1, n => if n = 0 then [] else n % 10 :: natDigitsRev fuel (n / 10)

/-- Decimal digit characters of a positive natural number, most significant
first. -/
def natToDigitChars (n : Nat) : Str :=
  (natDigitsRev n n).reverse.map (fun d => Char.ofNat (48 + d))

/-- Decimal rendering of a natural number, as Go `fmt` prints it. -/
def natToStr (n : Nat) : Str := if n = 0 then ['0'] else natToDigitChars n

/-- Decimal rendering of an integer, as Go `fmt` prints it. -/
def intToStr (z : Int) : Str :=
  if z < 0 then '-' :: natToStr z.natAbs else natToStr z.natAbs

/-- Round to the nearest integer, ties to even — the rounding Go's `fmt`
applies for the verb `%.0f`.  Written with integer arithmetic on the reduced
numerator and denominator: with `f = ⌊q⌋`, the fractional part `q - f`
compares to `1/2` as `2*(num - f*den)` compares to `den`. -/
def roundHalfEven (q : ℚ) : Int :=
  let n := q.num
  let d : Int := (q.den : Int)
  let f := Int.fdiv n d
  let twice := 2 * (n - f * d)
  if twice < d then f
  else if d < twice then f + 1
  else if f % 2 = 0 then f else f + 1

/-- Go `fmt.Sprintf("%.0f", x)`: the length rendered with zero decimal
places. -/
def fmtF0 (q : ℚ) : Str := intToStr (roundHalfEven q)

/-- Exact value of a decimal literal `[-]ip[.fp]`, modelling Go
`strconv.ParseFloat` (float64 is modelled as exact rationals): the value
`(ip.fp) = (ip * 10^k + fp) / 10^k` with `k` fractional digits. -/
def parseGoFloat (neg : Bool) (ip fp : Str) : ℚ :=
  let k := fp.length
  let numAbs : Int := (digitsToNat ip * 10 ^ k + digitsToNat fp : Nat)
  mkRat (if neg then -numAbs else numAbs) (10 ^ k)

/-- Modelled from the environment: Go `net/url.URL`, collapsed to the string
`String()` renders; `raw` is that rendering. -/
structure GoURL where
  raw : Str
deriving DecidableEq, Repr

/-- Hexadecimal digit characters. -/
def isHexChar (c : Char) : Bool :=
  c.isDigit || ('a' ≤ c && c ≤ 'f') || ('A' ≤ c && c ≤ 'F')

/-- Every `%` begins a valid two-hex-digit escape. -/
def escapesOk : Str → Bool
  | [] => true
  | '%' :: c1 :: c2 :: rest => isHexChar c1 && isHexChar c2 && escapesOk rest
  | '%' :: _ => false
  | _ :: rest => escapesOk rest

/-- Modelled from the environment: whether Go `net/url.Parse` accepts the
string.  Simplified to the two checks relevant here: no ASCII control
characters anywhere, and valid percent escapes outside the query component
(Go stores the query raw). -/
def urlParseOk (l : Str) : Bool :=
  l.all (fun c => 32 ≤ c.toNat && c.toNat ≠ 127) && escapesOk (l.takeWhile (fun c => c ≠ '?'))

/-- Modelled from the environment: Go `net/url.Parse`; on success the URL
value is identified with its rendering. -/
def urlParse (l : Str) : Option GoURL :=
  if urlParseOk l then some ⟨l⟩ else none

/-- Go `(*url.URL).String()`. -/
def GoURL.render (u : GoURL) : Str := u.raw

/-- The `Track` struct of the library. -/
structure Track where
  length : ℚ := 0
  name : Str := []
  tvgID : Option Str := none
  tvgName : Option Str := none
  tvgLanguage : Option Str := none
  tvgLogo : Option GoURL := none
  groupTitle : Option Str := none
  url : Option GoURL := none
  extraAttributes : AttrMap := []
  extraDirectives : List Str := []
deriving DecidableEq, Repr

/-- The `Playlist` struct of the library. -/
structure Playlist where
  tvgURL : Option GoURL := none
  xtvgURL : Option GoURL := none
  extraAttributes : AttrMap := []
  tracks : List Track := []
deriving DecidableEq, Repr

/-- The zero value `Playlist{}`. -/
def Playlist.empty : Playlist := {}

/-- Go map assignment `m[k] = v` on the association-list model: overwrite in
place if the key exists, append otherwise. -/
def mapInsert (k v : Str) : AttrMap → AttrMap
  | [] => [(k, v)]
  | (k', v') :: rest => if k' = k then (k', v) :: rest else (k', v') :: mapInsert k v rest

/-- Characters matched by the key class `[\p{L}\p{N}-]` of `attributeRegex`,
restricted to ASCII letters and digits plus the hyphen. -/
def isKeyChar (c : Char) : Bool := c.isAlphanum || c = '-'

/-- Scan up to the first double quote: on success return the quote-free text
before it and the remainder after it (the submatch `([^"]*)"`). -/
def splitAtQuote : Str → Option (Str × Str)
  | [] => none
  | c :: rest =>
    if c = '"' then some ([], rest)
    else
      match splitAtQuote rest with
      | none => none
      | some (v, r) => some (c :: v, r)

theorem splitAtQuote_shrinks {l v r} (h : splitAtQuote l = some (v, r)) :
    r.length < l.length := by
  induction l generalizing v r with
  | nil => simp [splitAtQuote] at h
  | cons c rest ih =>
    unfold splitAtQuote at h
    by_cases hc : c = '"'
    · rw [if_pos hc] at h
      have hr : rest = r := by
        have := congrArg (fun o => (Option.map Prod.snd o).getD []) h
        simpa using this
      subst hr
      simp
    · rw [if_neg hc] at h
      rcases hs : splitAtQuote rest with - | ⟨v', r'⟩ <;> rw [hs] at h
      · simp at h
      · have hr : r' = r := by
          have := congrArg (fun o => (Option.map Prod.snd o).getD []) h
          simpa using this
        subst hr
        have := ih hs
        simp only [List.length_cons]
        omega

/-- Attempt to match `attributeRegex` = `([\p{L}\p{N}-]+)="([^"]*)"` at the
start of the string; on success return the key, the value and the remainder
after the closing quote. -/
def tryAttrAt (l : Str) : Option (Str × Str × Str) :=
  if (l.takeWhile isKeyChar).isEmpty then none
  else
    match l.dropWhile isKeyChar with
    | '=' :: '"' :: r2 =>
      match splitAtQuote r2 with
      | some (v, rest) => some (l.takeWhile isKeyChar, v, rest)
      | none => none
    | _ => none

theorem tryAttrAt_shrinks {l k v rest} (h : tryAttrAt l = some (k, v, rest)) :
    rest.length < l.length := by
  unfold tryAttrAt at h
  by_cases hk : (l.takeWhile isKeyChar).isEmpty
  · simp [hk] at h
  · simp only [hk, Bool.false_eq_true, if_false] at h
    rcases hd : l.dropWhile isKeyChar with - | ⟨c1, r1⟩ <;> rw [hd] at h
    · simp at h
    · rcases r1 with - | ⟨c2, r2⟩
      · by_cases he : c1 = '=' <;> simp [he] at h
      · by_cases he : c1 = '='
        · subst he
          by_cases hq : c2 = '"'
          · subst hq
            simp only at h
            rcases hs : splitAtQuote r2 with - | ⟨v', r'⟩ <;> rw [hs] at h
            · simp at h
            · simp only [Option.some.injEq, Prod.mk.injEq] at h
              obtain ⟨-, -, hrest⟩ := h
              subst hrest
              have h1 : r'.length < r2.length := splitAtQuote_shrinks hs
              have h2 : (l.dropWhile isKeyChar).length ≤ l.length :=
                (List.dropWhile_sublist _).length_le
              rw [hd] at h2
              simp only [List.length_cons] at h2
              omega
          · simp [hq] at h
        · simp [he] at h

/-- Fuel-driven scanner body for `extractAttrs`; the fuel only needs to be
at least the string length, so the two definitions agree there. -/
def extractAttrsFuel : Nat → Str → List (Str × Str)
  | 0, _ => []
  | _ + 1, [] => []
  | fuel + 1, c :: cs =>
    match tryAttrAt (c :: cs) with
    | some (k, v, rest) => (k, v) :: extractAttrsFuel fuel rest
    | none => extractAttrsFuel fuel cs

/-- `attributeRegex.FindAllStringSubmatch(l, -1)`: all leftmost
non-overlapping matches, in order, as (key, value) pairs. -/
def extractAttrs (l : Str) : List (Str × Str) := extractAttrsFuel l.length l

/-- The scanner result does not depend on the exact fuel, as long as it
covers the string length. -/
theorem extractAttrsFuel_congr {f1 f2 : Nat} {l : Str}
    (h1 : l.length ≤ f1) (h2 : l.length ≤ f2) :
    extractAttrsFuel f1 l = extractAttrsFuel f2 l := by
  induction f1 using Nat.strong_induction_on generalizing f2 l with
  | _ f1 ih =>
    match f1, f2, l with
    | 0, f2, l =>
      have : l = [] := List.eq_nil_of_length_eq_zero (Nat.le_zero.mp h1)
      subst this
      cases f2 <;> rfl
    | _ + 1, 0, l =>
      have : l = [] := List.eq_nil_of_length_eq_zero (Nat.le_zero.mp h2)
      subst this
      rfl
    | _ + 1, _ + 1, [] => rfl
    | g1 + 1, g2 + 1, c :: cs =>
      rcases ht : tryAttrAt (c :: cs) with - | ⟨k, v, rest⟩
      · simp only [extractAttrsFuel, ht]
        have hl : cs.length ≤ g1 := by
          simp only [List.length_cons] at h1
          omega
        have hl2 : cs.length ≤ g2 := by
          simp only [List.length_cons] at h2
          omega
        exact ih g1 (Nat.lt_succ_self g1) hl hl2
      · simp only [extractAttrsFuel, ht]
        have hr := tryAttrAt_shrinks ht
        have hl : rest.length ≤ g1 := by
          simp only [List.length_cons] at hr h1
          omega
        have hl2 : rest.length ≤ g2 := by
          simp only [List.length_cons] at hr h2
          omega
        rw [ih g1 (Nat.lt_succ_self g1) hl hl2]

/-- The digit part of the number token: after the optional sign, the maximal
digit run, an optional dot with a further maximal digit run. -/
def takeNumBody (neg : Bool) (l1 : Str) : Option (ℚ × Str) :=
  if (l1.takeWhile Char.isDigit).isEmpty then none
  else
    match l1.dropWhile Char.isDigit with
    | '.' :: r2 =>
      some (parseGoFloat neg (l1.takeWhile Char.isDigit) (r2.takeWhile Char.isDigit),
        r2.dropWhile Char.isDigit)
    | r1 => some (parseGoFloat neg (l1.takeWhile Char.isDigit) [], r1)

/-- Match the number token `-?\d+\.?\d*` of `extinfLineRegex` at the start of
the string; on success return its parsed value and the remainder. -/
def takeNum (l : Str) : Option (ℚ × Str) :=
  if strStartsWith ['-'] l then takeNumBody true (l.drop 1) else takeNumBody false l

/-- Split at the last comma: the text before it and the text after it
(`(.*)?,(.*)$` with a greedy first group). -/
def splitAtLastComma (l : Str) : Option (Str × Str) :=
  match l.reverse.dropWhile (fun c => c ≠ ',') with
  | ',' :: before => some (before.reverse, (l.reverse.takeWhile (fun c => c ≠ ',')).reverse)
  | _ => none

/-- Match `extinfLineRegex` = `^#EXTINF:(-?\d+\.?\d*)(.*)?,(.*)$` against a
line: on success return the parsed duration, the attribute part (between the
duration and the last comma) and the name part (after the last comma).
`.` does not match a newline, so a line containing one never matches. -/
def parseExtinfShape (l : Str) : Option (ℚ × Str × Str) :=
  if '\n' ∈ l then none
  else if strStartsWith ("#EXTINF:".toList) l then
    match takeNum (l.drop 8) with
    | none => none
    | some (q, r1) =>
      match splitAtLastComma r1 with
      | none => none
      | some (attrs, nm) => some (q, attrs, nm)
  else none

/-- Match `extm3uLineRegex` = `^#EXTM3U(?:\s+(.*))?$` against the text after
the `#EXTM3U` token: the remainder must be empty, or start with `\s`
whitespace whose maximal run is followed by newline-free text; on success
return the captured group (the text after that run). -/
def headerRemainderMatch (r : Str) : Option Str :=
  if r.isEmpty then some []
  else if isRegexSpace r.head! then
    let t := r.dropWhile isRegexSpace
    if '\n' ∈ t then none else some t
  else none

/-- The `ErrInvalidPlaylist` struct. -/
structure ErrInvalidPlaylist where
  message : Str
  lineNumber : Nat
  line : Str
deriving DecidableEq, Repr

/-- `ErrInvalidPlaylist.Error()`. -/
def ErrInvalidPlaylist.render (e : ErrInvalidPlaylist) : Str :=
  ("invalid m3u playlist: line ".toList) ++ natToStr e.lineNumber
    ++ (": `".toList) ++ e.line ++ ("`: ".toList) ++ e.message

/-- An error returned by `Decode`.  With a pure in-memory stream the only
read failure is `io.EOF`, returned verbatim by `Decode` when the first
`readLine` already reports end of stream. -/
inductive DecodeErr where
  | invalid (e : ErrInvalidPlaylist)
  | eofErr
deriving DecidableEq, Repr

def mustStartMsg : Str :=
  ("playlist must start with the `#EXTM3U` directive").toList

def trackIncompleteMsg : Str :=
  ("`#EXTINF` directive block must end with a URL").toList

def extinfFirstMsg : Str :=
  ("`#EXTINF` directive must appear before any other directive").toList

/-- Go formats `"invalid URL: %v"` with the `url.Parse` error; the model
keeps the fixed prefix. -/
def invalidURLMsg : Str := ("invalid URL").toList

def unexpectedContentMsg : Str := ("unexpected content").toList

/-- Go embeds the regex source via `%q`; the model keeps the fixed text
(with the source's `#EXTNF` typo). -/
def extinfMalformedMsg : Str :=
  ("malformed `#EXTINF` line: `#EXTNF` line failed to match regex").toList

def extm3uMalformedMsg : Str :=
  ("malformed `#EXTM3U` line: `#EXTM3U` line failed to match regex").toList

def urlTvgKey : Str := ("url-tvg").toList
def xTvgUrlKey : Str := ("x-tvg-url").toList
def tvgIdKey : Str := ("tvg-id").toList
def tvgNameKey : Str := ("tvg-name").toList
def tvgLanguageKey : Str := ("tvg-language").toList
def tvgLogoKey : Str := ("tvg-logo").toList
def groupTitleKey : Str := ("group-title").toList

/-- The `switch key` of `parseEXTM3ULine`: route one header attribute. -/
def applyHeaderAttr (p : Playlist) (kv : Str × Str) : Playlist :=
  if kv.1 = urlTvgKey then
    match urlParse kv.2 with
    | some u => { p with tvgURL := some u }
    | none => p
  else if kv.1 = xTvgUrlKey then
    match urlParse kv.2 with
    | some u => { p with xtvgURL := some u }
    | none => p
  else
    { p with extraAttributes := mapInsert kv.1 kv.2 p.extraAttributes }

/-- `parseEXTM3ULine`: match the header regex, then fold every extracted
attribute into the playlist. -/
def parseEXTM3ULine (n : Nat) (line : Str) (p : Playlist) :
    Except ErrInvalidPlaylist Playlist :=
  if strStartsWith ("#EXTM3U".toList) line then
    match headerRemainderMatch (line.drop 7) with
    | none => .error ⟨extm3uMalformedMsg, n, line⟩
    | some r => .ok ((extractAttrs (trim r)).foldl applyHeaderAttr p)
  else .error ⟨extm3uMalformedMsg, n, line⟩

/-- The `switch key` of `parseEXTINFLine`: route one track attribute. -/
def applyExtinfAttr (t : Track) (kv : Str × Str) : Track :=
  if kv.1 = tvgIdKey then { t with tvgID := some kv.2 }
  else if kv.1 = tvgNameKey then { t with tvgName := some kv.2 }
  else if kv.1 = tvgLanguageKey then { t with tvgLanguage := some kv.2 }
  else if kv.1 = tvgLogoKey then
    match urlParse kv.2 with
    | some u => { t with tvgLogo := some u }
    | none => t
  else if kv.1 = groupTitleKey then { t with groupTitle := some kv.2 }
  else { t with extraAttributes := mapInsert kv.1 kv.2 t.extraAttributes }

/-- `parseEXTINFLine`: match the EXTINF regex, set the duration, fold the
attributes extracted from the trimmed attribute part, set the trimmed name. -/
def parseEXTINFLine (n : Nat) (line : Str) : Except ErrInvalidPlaylist Track :=
  match parseExtinfShape line with
  | none => .error ⟨extinfMalformedMsg, n, line⟩
  | some (q, attrs, nm) =>
    .ok { (extractAttrs (trim attrs)).foldl applyExtinfAttr { length := q } with
          name := trim nm }

/-- The loop of `Decode`, driven by the remaining newline-separated segments
of the input; `n` is the line counter before the next read, `cur` the open
track, `p` the playlist written so far through the caller's pointer.  The
final segment is the read reporting `io.EOF`; after consuming it the loop
breaks, so the `[]` case is never reached from `decodeCore`. -/
def decodeLoop : List Str → Nat → Option Track → Playlist →
    Playlist × Option ErrInvalidPlaylist
  | [], _, _, p => (p, none)
  | s :: rest, n, cur, p =>
    if trim s = [] then
      if rest.isEmpty then
        match cur with
        | some _ => (p, some ⟨trackIncompleteMsg, n + 1, trim s⟩)
        | none => (p, none)
      else decodeLoop rest (n + 1) cur p
    else if strStartsWith (("#EXTINF:").toList) (trim s) then
      match cur with
      | some _ => (p, some ⟨trackIncompleteMsg, n + 1, trim s⟩)
      | none =>
        match parseEXTINFLine (n + 1) (trim s) with
        | .error e => (p, some e)
        | .ok t =>
          if rest.isEmpty then (p, none)
          else decodeLoop rest (n + 1) (some { t with extraDirectives := [] }) p
    else if strStartsWith ['#'] (trim s) then
      match cur with
      | none => (p, some ⟨extinfFirstMsg, n + 1, trim s⟩)
      | some t =>
        if rest.isEmpty then (p, none)
        else
          decodeLoop rest (n + 1)
            (some { t with extraDirectives := t.extraDirectives ++ [trim s] }) p
    else
      match cur with
      | some t =>
        if t.url = none then
          match urlParse (trim s) with
          | none => (p, some ⟨invalidURLMsg, n + 1, trim s⟩)
          | some u =>
            if rest.isEmpty then
              ({ p with tracks := p.tracks ++ [{ t with url := some u }] }, none)
            else
              decodeLoop rest (n + 1) none
                { p with tracks := p.tracks ++ [{ t with url := some u }] }
        else (p, some ⟨unexpectedContentMsg, n + 1, trim s⟩)
      | none => (p, some ⟨unexpectedContentMsg, n + 1, trim s⟩)

/-- `Decode`: the argument `_initial` is the caller's playlist value, which
the method immediately overwrites with `Playlist{}` before reading; the
returned playlist is what the caller observes through the pointer after the
call, alongside the returned error.  Go returns the `io.EOF` read error
verbatim when the very first `readLine` already reports end of stream
(an input without any newline). -/
def decodeCore (_initial : Playlist) (input : Str) : Playlist × Option DecodeErr :=
  match splitOnNl input with
  | [] => (Playlist.empty, none)
  | s :: rest =>
    if rest.isEmpty then (Playlist.empty, some .eofErr)
    else if strStartsWith (("#EXTM3U").toList) (trim s) then
      match parseEXTM3ULine 1 (trim s) Playlist.empty with
      | .error e => (Playlist.empty, some (.invalid e))
      | .ok p1 =>
        ((decodeLoop rest 1 none p1).1,
          (decodeLoop rest 1 none p1).2.map DecodeErr.invalid)
    else (Playlist.empty, some (.invalid ⟨mustStartMsg, 1, trim s⟩))

/-- `Unmarshal`: decode into a fresh playlist; on error no playlist is
returned. -/
def unmarshal (input : Str) : Except DecodeErr Playlist :=
  match decodeCore Playlist.empty input with
  | (p, none) => .ok p
  | (_, some e) => .error e

/-- `PlaylistType` is a string type in the source. -/
abbrev PlaylistType := Str

/-- The basic `M3U` format selector. -/
def fmtM3U : PlaylistType := ("M3U").toList

/-- The extended `M3UPlus` format selector. -/
def fmtM3UPlus : PlaylistType := ("M3UPlus").toList

/-- One ` key="value"` fragment, as both encoder loops print it. -/
def quoteAttr (k v : Str) : Str := ' ' :: (k ++ '=' :: '"' :: (v ++ ['"']))

/-- Emit ` key="value"` when the optional string field is present. -/
def optQuoted (k : Str) : Option Str → Str
  | none => []
  | some v => quoteAttr k v

/-- Emit ` key="url"` when the optional URL field is present. -/
def optQuotedURL (k : Str) : Option GoURL → Str
  | none => []
  | some u => quoteAttr k u.render

/-- The `#EXTM3U` header line that `Encode` writes (without its newline). -/
def headerLineStr (p : Playlist) : Str :=
  ("#EXTM3U".toList) ++ optQuotedURL urlTvgKey p.tvgURL
    ++ optQuotedURL xTvgUrlKey p.xtvgURL
    ++ (p.extraAttributes.map (fun kv => quoteAttr kv.1 kv.2)).flatten

/-- The `#EXTINF` line that `Encode` writes for one track (without its
newline): in `M3UPlus` mode the recognized attributes in fixed order then
the extra attributes, in any other mode no attributes at all. -/
def extinfLineStr (pt : PlaylistType) (t : Track) : Str :=
  if pt = fmtM3UPlus then
    ("#EXTINF:".toList) ++ fmtF0 t.length
      ++ optQuoted tvgIdKey t.tvgID
      ++ optQuoted tvgNameKey t.tvgName
      ++ optQuoted tvgLanguageKey t.tvgLanguage
      ++ optQuotedURL tvgLogoKey t.tvgLogo
      ++ optQuoted groupTitleKey t.groupTitle
      ++ (t.extraAttributes.map (fun kv => quoteAttr kv.1 kv.2)).flatten
      ++ ',' :: t.name
  else ("#EXTINF:".toList) ++ fmtF0 t.length ++ ',' :: t.name

/-- The lines `Encode` writes for one track: the `#EXTINF` line, each extra
directive verbatim, then the URL if present, each followed by a newline. -/
def trackBlockStr (pt : PlaylistType) (t : Track) : Str :=
  extinfLineStr pt t ++ '\n' :: ((t.extraDirectives.map (fun d => d ++ ['\n'])).flatten
    ++ (match t.url with
        | none => []
        | some u => u.render ++ ['\n']))

/-- `Encode` / `Marshal`: the full rendering.  Writes to an in-memory buffer
never fail, so the encoder is total here. -/
def encodePlaylist (p : Playlist) (pt : PlaylistType) : Str :=
  headerLineStr p ++ '\n' :: (p.tracks.map (trackBlockStr pt)).flatten

/-! ### Basic lemmas about the string helpers -/

theorem splitOnNl_cons (c : Char) (cs : Str) :
    splitOnNl (c :: cs) =
      if c = '\n' then [] :: splitOnNl cs
      else (c :: (splitOnNl cs).headD []) :: (splitOnNl cs).tail := rfl

theorem splitOnNl_ne_nil (l : Str) : splitOnNl l ≠ [] := by
  induction l with
  | nil => simp [splitOnNl]
  | cons c cs ih =>
    unfold splitOnNl
    by_cases hc : c = '\n' <;> simp [hc]

theorem splitOnNl_no_nl {l : Str} (h : '\n' ∉ l) : splitOnNl l = [l] := by
  induction l with
  | nil => rfl
  | cons c cs ih =>
    have hc : c ≠ '\n' := fun hcc => h (hcc ▸ List.mem_cons_self c cs)
    have hcs : '\n' ∉ cs := fun hm => h (List.mem_cons_of_mem c hm)
    rw [splitOnNl_cons, if_neg hc, ih hcs]
    simp

theorem splitOnNl_append {a r : Str} (h : '\n' ∉ a) :
    splitOnNl (a ++ '\n' :: r) = a :: splitOnNl r := by
  induction a with
  | nil => simp [splitOnNl]
  | cons c cs ih =>
    have hc : c ≠ '\n' := fun hcc => h (hcc ▸ List.mem_cons_self c cs)
    have hcs : '\n' ∉ cs := fun hm => h (List.mem_cons_of_mem c hm)
    simp only [List.cons_append]
    rw [splitOnNl_cons, if_neg hc, ih hcs]
    simp

theorem mem_splitOnNl {l s : Str} (h : s ∈ splitOnNl l) : '\n' ∉ s := by
  induction l generalizing s with
  | nil =>
    simp only [splitOnNl, List.mem_singleton] at h
    subst h
    simp
  | cons c cs ih =>
    unfold splitOnNl at h
    by_cases hc : c = '\n'
    · rw [if_pos hc] at h
      rcases List.mem_cons.mp h with h1 | h2
      · subst h1; simp
      · exact ih h2
    · rw [if_neg hc] at h
      rcases hs : splitOnNl cs with - | ⟨s0, rest⟩
      · exact absurd hs (splitOnNl_ne_nil cs)
      · rw [hs] at h
        simp only [List.headD_cons, List.tail_cons] at h
        rcases List.mem_cons.mp h with h1 | h2
        · subst h1
          intro hm
          rcases List.mem_cons.mp hm with h3 | h4
          · exact hc h3.symm
          · exact ih (hs ▸ List.mem_cons_self s0 rest) h4
        · exact ih (hs ▸ List.mem_cons_of_mem s0 h2)

theorem length_splitOnNl (l : Str) : (splitOnNl l).length = countNl l + 1 := by
  induction l with
  | nil => simp [splitOnNl, countNl]
  | cons c cs ih =>
    rw [splitOnNl_cons]
    by_cases hc : c = '\n'
    · rw [if_pos hc]
      simp only [List.length_cons, ih]
      simp [countNl, List.countP_cons, hc]
    · rw [if_neg hc]
      rcases hs : splitOnNl cs with - | ⟨s0, rest⟩
      · exact absurd hs (splitOnNl_ne_nil cs)
      · rw [hs] at ih
        simp only [List.length_cons] at ih
        simp only [hs, List.headD_cons, List.tail_cons, List.length_cons]
        have : countNl (c :: cs) = countNl cs := by
          simp [countNl, List.countP_cons, hc]
        omega

/-- The input `Encode` produces: every emitted line followed by a newline. -/
def joinLines (ls : List Str) : Str := (ls.map (fun s => s ++ ['\n'])).flatten

theorem splitOnNl_joinLines {ls : List Str} (h : ∀ s ∈ ls, '\n' ∉ s) :
    splitOnNl (joinLines ls) = ls ++ [[]] := by
  induction ls with
  | nil => rfl
  | cons s rest ih =>
    have h1 : '\n' ∉ s := h s (List.mem_cons_self s rest)
    have h2 : ∀ t ∈ rest, '\n' ∉ t := fun t ht => h t (List.mem_cons_of_mem s ht)
    simp only [joinLines, List.map_cons, List.flatten_cons, List.append_assoc, List.singleton_append]
    rw [splitOnNl_append h1]
    simp only [List.cons_append, List.cons.injEq, true_and]
    exact ih h2

/-! ### Lemmas about `trim` -/

theorem dropWhile_eq_self {p : Char → Bool} {l : Str}
    (h : ∀ c, l.head? = some c → p c = false) : l.dropWhile p = l := by
  cases l with
  | nil => rfl
  | cons c cs =>
    have := h c rfl
    simp [List.dropWhile_cons, this]

theorem head?_dropWhile {p : Char → Bool} {l : Str} {c : Char}
    (h : (l.dropWhile p).head? = some c) : p c = false := by
  induction l with
  | nil => simp [List.dropWhile] at h
  | cons a cs ih =>
    by_cases ha : p a
    · rw [List.dropWhile_cons, if_pos ha] at h
      exact ih h
    · rw [List.dropWhile_cons, if_neg ha] at h
      simp only [List.head?_cons, Option.some.injEq] at h
      subst h
      exact Bool.eq_false_iff.mpr ha

theorem mem_dropWhile {p : Char → Bool} {l : Str} {x : Char}
    (h : x ∈ l.dropWhile p) : x ∈ l :=
  (List.dropWhile_sublist p).mem h

theorem mem_trim {l : Str} {x : Char} (h : x ∈ trim l) : x ∈ l := by
  unfold trim at h
  rw [List.mem_reverse] at h
  have h2 := mem_dropWhile h
  rw [List.mem_reverse] at h2
  exact mem_dropWhile h2

theorem trim_eq_self {l : Str}
    (h1 : ∀ c, l.head? = some c → isGoSpace c = false)
    (h2 : ∀ c, l.getLast? = some c → isGoSpace c = false) : trim l = l := by
  unfold trim
  rw [dropWhile_eq_self h1]
  have : l.reverse.dropWhile isGoSpace = l.reverse := by
    apply dropWhile_eq_self
    intro c hc
    rw [List.head?_reverse] at hc
    exact h2 c hc
  rw [this, List.reverse_reverse]

theorem getLast?_dropWhile {p : Char → Bool} {l : Str}
    (h : l.dropWhile p ≠ []) : (l.dropWhile p).getLast? = l.getLast? := by
  induction l with
  | nil => simp [List.dropWhile] at h
  | cons a cs ih =>
    by_cases ha : p a
    · rw [List.dropWhile_cons, if_pos ha] at h ⊢
      rw [ih h]
      have hcs : cs ≠ [] := by
        intro hnil
        subst hnil
        simp [List.dropWhile] at h
      rcases List.exists_cons_of_ne_nil hcs with ⟨b, t, rfl⟩
      simp [List.getLast?_cons_cons]
    · rw [List.dropWhile_cons, if_neg ha]

theorem head?_trim {l : Str} {c : Char} (h : (trim l).head? = some c) :
    isGoSpace c = false := by
  unfold trim at h
  rw [List.head?_reverse] at h
  set A := (l.dropWhile isGoSpace).reverse with hA
  have hne : A.dropWhile isGoSpace ≠ [] := by
    intro hnil
    rw [hnil] at h
    simp at h
  rw [getLast?_dropWhile hne] at h
  rw [hA, List.getLast?_reverse] at h
  exact head?_dropWhile h

theorem getLast?_trim {l : Str} {c : Char} (h : (trim l).getLast? = some c) :
    isGoSpace c = false := by
  unfold trim at h
  rw [List.getLast?_reverse] at h
  exact head?_dropWhile h

theorem trim_idem (l : Str) : trim (trim l) = trim l :=
  trim_eq_self (fun c hc => head?_trim hc) (fun c hc => getLast?_trim hc)

theorem trim_nil : trim [] = [] := rfl

/-! ### Lemmas about `strStartsWith` and attribute scanning -/

theorem strStartsWith_append (p r : Str) : strStartsWith p (p ++ r) = true := by
  induction p with
  | nil => rfl
  | cons c cs ih => simp [strStartsWith, ih]

theorem strStartsWith_iff {p l : Str} :
    strStartsWith p l = true ↔ ∃ r, l = p ++ r := by
  constructor
  · intro h
    induction p generalizing l with
    | nil => exact ⟨l, rfl⟩
    | cons c cs ih =>
      cases l with
      | nil => simp [strStartsWith] at h
      | cons a t =>
        simp only [strStartsWith, Bool.and_eq_true, decide_eq_true_eq] at h
        obtain ⟨rfl, h2⟩ := h
        obtain ⟨r, rfl⟩ := ih h2
        exact ⟨r, rfl⟩
  · rintro ⟨r, rfl⟩
    exact strStartsWith_append p r

theorem takeWhile_append_not {p : Char → Bool} {k : Str} (hk : ∀ c ∈ k, p c = true)
    {c : Char} (hc : p c = false) (r : Str) :
    (k ++ c :: r).takeWhile p = k ∧ (k ++ c :: r).dropWhile p = c :: r := by
  induction k with
  | nil => simp [List.takeWhile_cons, List.dropWhile_cons, hc]
  | cons a t ih =>
    have ha : p a = true := hk a (List.mem_cons_self a t)
    have ht : ∀ x ∈ t, p x = true := fun x hx => hk x (List.mem_cons_of_mem a hx)
    obtain ⟨ih1, ih2⟩ := ih ht
    constructor
    · simp only [List.cons_append, List.takeWhile_cons, ha, if_pos rfl]
      simp [ih1]
    · simp only [List.cons_append, List.dropWhile_cons, ha, if_pos rfl]
      simpa using ih2

theorem splitAtQuote_of_no_quote {v : Str} (hv : '"' ∉ v) (r : Str) :
    splitAtQuote (v ++ '"' :: r) = some (v, r) := by
  induction v with
  | nil => simp [splitAtQuote]
  | cons c t ih =>
    have hc : c ≠ '"' := fun hcc => hv (hcc ▸ List.mem_cons_self c t)
    have ht : '"' ∉ t := fun hm => hv (List.mem_cons_of_mem c hm)
    simp only [List.cons_append]
    unfold splitAtQuote
    rw [if_neg hc, ih ht]

theorem splitAtQuote_spec {l v r : Str} (h : splitAtQuote l = some (v, r)) :
    l = v ++ '"' :: r ∧ '"' ∉ v := by
  induction l generalizing v r with
  | nil => simp [splitAtQuote] at h
  | cons c rest ih =>
    unfold splitAtQuote at h
    by_cases hc : c = '"'
    · rw [if_pos hc] at h
      simp only [Option.some.injEq, Prod.mk.injEq] at h
      obtain ⟨h1, h2⟩ := h
      subst hc
      refine ⟨by rw [← h1, ← h2]; rfl, by rw [← h1]; simp⟩
    · rw [if_neg hc] at h
      rcases hs : splitAtQuote rest with - | ⟨v', r'⟩ <;> rw [hs] at h
      · simp at h
      · simp only [Option.some.injEq, Prod.mk.injEq] at h
        obtain ⟨h1, h2⟩ := h
        obtain ⟨ihl, ihq⟩ := ih hs
        subst h2
        constructor
        · rw [← h1, ihl]; rfl
        · rw [← h1]
          intro hm
          rcases List.mem_cons.mp hm with h3 | h4
          · exact hc h3.symm
          · exact ihq h4

theorem tryAttrAt_of_shape {k v : Str} (hk : k ≠ []) (hkc : ∀ c ∈ k, isKeyChar c = true)
    (hv : '"' ∉ v) (rest : Str) :
    tryAttrAt (k ++ ('=' :: '"' :: (v ++ '"' :: rest))) = some (k, v, rest) := by
  have heq : isKeyChar '=' = false := by decide
  obtain ⟨h1, h2⟩ := takeWhile_append_not hkc heq ('"' :: (v ++ '"' :: rest))
  unfold tryAttrAt
  rw [h1, h2]
  have hne : k.isEmpty = false := by
    cases k with
    | nil => exact absurd rfl hk
    | cons a t => rfl
  rw [hne]
  simp only [Bool.false_eq_true, if_false]
  rw [splitAtQuote_of_no_quote hv rest]

theorem tryAttrAt_spec {l k v rest : Str} (h : tryAttrAt l = some (k, v, rest)) :
    l = k ++ ('=' :: '"' :: (v ++ '"' :: rest)) ∧ k ≠ [] ∧ (∀ c ∈ k, isKeyChar c = true)
      ∧ '"' ∉ v := by
  unfold tryAttrAt at h
  by_cases hk : (l.takeWhile isKeyChar).isEmpty
  · simp [hk] at h
  · simp only [hk, Bool.false_eq_true, if_false] at h
    rcases hd : l.dropWhile isKeyChar with - | ⟨c1, r1⟩ <;> rw [hd] at h
    · simp at h
    · rcases r1 with - | ⟨c2, r2⟩
      · by_cases he : c1 = '=' <;> simp [he] at h
      · by_cases he : c1 = '='
        · subst he
          by_cases hq : c2 = '"'
          · subst hq
            simp only at h
            rcases hs : splitAtQuote r2 with - | ⟨v', r'⟩ <;> rw [hs] at h
            · simp at h
            · simp only [Option.some.injEq, Prod.mk.injEq] at h
              obtain ⟨hkk, hvv, hrr⟩ := h
              obtain ⟨hsl, hsq⟩ := splitAtQuote_spec hs
              subst hkk hvv hrr
              refine ⟨?_, ?_, ?_, hsq⟩
              · conv_lhs => rw [← List.takeWhile_append_dropWhile (p := isKeyChar) (l := l)]
                rw [hd, hsl]
              · intro hnil
                rw [hnil] at hk
                exact hk rfl
              · intro c hc
                exact List.mem_takeWhile_imp hc
          · simp [hq] at h
        · simp [he] at h

/-- A key as the attribute regex produces: nonempty, all key characters. -/
def GoodKeyP (k : Str) : Prop := k ≠ [] ∧ ∀ c ∈ k, isKeyChar c = true

theorem isKeyChar_not_space {c : Char} (h : isKeyChar c = true) : isGoSpace c = false := by
  by_contra hs
  have hs' : isGoSpace c = true := by
    cases hg : isGoSpace c
    · exact absurd hg hs
    · rfl
  unfold isGoSpace at hs'
  simp only [Bool.or_eq_true, decide_eq_true_eq] at hs'
  have hcases : c = ' ' ∨ c = '\t' ∨ c = '\n' ∨ c = Char.ofNat 11 ∨ c = Char.ofNat 12
      ∨ c = '\r' := by tauto
  rcases hcases with h1 | h1 | h1 | h1 | h1 | h1 <;> (subst h1; revert h; decide)

theorem extractAttrsFuel_mem : ∀ {f : Nat} {l : Str} {kv : Str × Str},
    kv ∈ extractAttrsFuel f l →
    GoodKeyP kv.1 ∧ '"' ∉ kv.2 ∧ (∀ c ∈ kv.1, c ∈ l) ∧ (∀ c ∈ kv.2, c ∈ l) := by
  intro f
  induction f with
  | zero => intro l kv h; simp [extractAttrsFuel] at h
  | succ f ih =>
    intro l kv h
    cases l with
    | nil => simp [extractAttrsFuel] at h
    | cons c cs =>
      unfold extractAttrsFuel at h
      rcases ht : tryAttrAt (c :: cs) with - | ⟨k, v, rest⟩ <;> rw [ht] at h
      · obtain ⟨g1, g2, g3, g4⟩ := ih h
        exact ⟨g1, g2, fun x hx => List.mem_cons_of_mem c (g3 x hx),
          fun x hx => List.mem_cons_of_mem c (g4 x hx)⟩
      · obtain ⟨hl, hk1, hk2, hq⟩ := tryAttrAt_spec ht
        rcases List.mem_cons.mp h with h1 | h2
        · subst h1
          refine ⟨⟨hk1, hk2⟩, hq, ?_, ?_⟩
          · intro x hx
            rw [hl]
            exact List.mem_append.mpr (Or.inl hx)
          · intro x hx
            rw [hl]
            refine List.mem_append.mpr (Or.inr ?_)
            simp only [List.mem_cons]
            right; right
            exact List.mem_append.mpr (Or.inl hx)
        · obtain ⟨g1, g2, g3, g4⟩ := ih h2
          have hsub : ∀ x, x ∈ rest → x ∈ c :: cs := by
            intro x hx
            rw [hl]
            refine List.mem_append.mpr (Or.inr ?_)
            simp only [List.mem_cons]
            right; right
            refine List.mem_append.mpr (Or.inr ?_)
            simp [hx]
          exact ⟨g1, g2, fun x hx => hsub x (g3 x hx), fun x hx => hsub x (g4 x hx)⟩

theorem extractAttrs_mem {l : Str} {kv : Str × Str} (h : kv ∈ extractAttrs l) :
    GoodKeyP kv.1 ∧ '"' ∉ kv.2 ∧ (∀ c ∈ kv.1, c ∈ l) ∧ (∀ c ∈ kv.2, c ∈ l) :=
  extractAttrsFuel_mem h

/-- The text a Go encoder loop writes for an association list: one
` key="value"` fragment per pair. -/
def pairsStr (m : AttrMap) : Str := (m.map (fun kv => quoteAttr kv.1 kv.2)).flatten

theorem pairsStr_cons (k v : Str) (m : AttrMap) :
    pairsStr ((k, v) :: m) = ' ' :: (k ++ ('=' :: '"' :: (v ++ '"' :: pairsStr m))) := by
  simp [pairsStr, quoteAttr, List.flatten_cons, List.append_assoc]

theorem pairsStr_append (m1 m2 : AttrMap) :
    pairsStr (m1 ++ m2) = pairsStr m1 ++ pairsStr m2 := by
  simp [pairsStr]

theorem getLast?_cons_ne {α : Type} (a : α) {l : List α} (h : l ≠ []) :
    (a :: l).getLast? = l.getLast? := by
  rw [← List.singleton_append, List.getLast?_append_of_ne_nil _ h]

theorem pairsStr_getLast {m : AttrMap} (h : m ≠ []) :
    (pairsStr m).getLast? = some '"' := by
  induction m with
  | nil => exact absurd rfl h
  | cons kv t ih =>
    rcases kv with ⟨k, v⟩
    rw [pairsStr_cons]
    rw [getLast?_cons_ne _ (by simp), List.getLast?_append_of_ne_nil _ (by simp)]
    rw [getLast?_cons_ne _ (by simp), getLast?_cons_ne _ (by simp)]
    rw [List.getLast?_append_of_ne_nil _ (by simp)]
    by_cases ht : t = []
    · subst ht
      rfl
    · have hP := ih ht
      have hne : pairsStr t ≠ [] := by
        intro hnil
        rw [hnil] at hP
        simp at hP
      rw [getLast?_cons_ne _ hne]
      exact hP

theorem trim_eq_dropWhile {l : Str}
    (h2 : ∀ c, l.getLast? = some c → isGoSpace c = false) :
    trim l = l.dropWhile isGoSpace := by
  unfold trim
  rcases hA : l.dropWhile isGoSpace with - | ⟨a, A'⟩
  · simp
  · have hne : l.dropWhile isGoSpace ≠ [] := by rw [hA]; simp
    have hlast : (l.dropWhile isGoSpace).getLast? = l.getLast? := getLast?_dropWhile hne
    have hrev : ((a :: A').reverse).dropWhile isGoSpace = (a :: A').reverse := by
      apply dropWhile_eq_self
      intro c hc
      rw [List.head?_reverse] at hc
      apply h2
      rw [← hlast, hA]
      exact hc
    rw [hrev, List.reverse_reverse]

theorem extractAttrsFuel_step_some {f : Nat} {l k v rest : Str}
    (h : tryAttrAt l = some (k, v, rest)) (hl : l ≠ []) :
    extractAttrsFuel (f + 1) l = (k, v) :: extractAttrsFuel f rest := by
  rcases l with - | ⟨c, cs⟩
  · exact absurd rfl hl
  · conv_lhs => rw [extractAttrsFuel]
    rw [h]

theorem extractAttrsFuel_step_none {f : Nat} {c : Char} {cs : Str}
    (h : tryAttrAt (c :: cs) = none) :
    extractAttrsFuel (f + 1) (c :: cs) = extractAttrsFuel f cs := by
  conv_lhs => rw [extractAttrsFuel]
  rw [h]

theorem tryAttrAt_space_cons (X : Str) : tryAttrAt (' ' :: X) = none := by
  unfold tryAttrAt
  have : isKeyChar ' ' = false := by decide
  simp [List.takeWhile_cons, this]

theorem extractAttrsFuel_pairsStr : ∀ {m : AttrMap} {fuel : Nat},
    (∀ kv ∈ m, GoodKeyP kv.1 ∧ '"' ∉ kv.2) → (pairsStr m).length ≤ fuel →
    extractAttrsFuel fuel (pairsStr m) = m := by
  intro m
  induction m with
  | nil =>
    intro fuel _ _
    cases fuel <;> rfl
  | cons kv t ih =>
    intro fuel hg hf
    rcases kv with ⟨k, v⟩
    have hkv := hg (k, v) (List.mem_cons_self _ _)
    have hk1 : k ≠ [] := hkv.1.1
    have hk2 : ∀ c ∈ k, isKeyChar c = true := hkv.1.2
    have hq : '"' ∉ v := hkv.2
    have hgt : ∀ kv ∈ t, GoodKeyP kv.1 ∧ '"' ∉ kv.2 :=
      fun kv hkv => hg kv (List.mem_cons_of_mem _ hkv)
    rw [pairsStr_cons] at hf ⊢
    simp only [List.length_cons, List.length_append, List.length_cons] at hf
    have hXlen : 3 ≤ ('=' :: '"' :: (v ++ '"' :: pairsStr t)).length := by
      simp only [List.length_cons, List.length_append]
      omega
    rcases fuel with - | f
    · omega
    · rcases f with - | f'
      · omega
      · rw [extractAttrsFuel_step_none (tryAttrAt_space_cons _)]
        rw [extractAttrsFuel_step_some (tryAttrAt_of_shape hk1 hk2 hq (pairsStr t))
          (by simp [hk1])]
        rw [@extractAttrsFuel_congr _ (pairsStr t).length _ (by omega) (Nat.le_refl _)]
        rw [ih hgt (Nat.le_refl _)]

theorem extractAttrs_pairsStr {m : AttrMap}
    (hg : ∀ kv ∈ m, GoodKeyP kv.1 ∧ '"' ∉ kv.2) :
    extractAttrs (pairsStr m) = m :=
  extractAttrsFuel_pairsStr hg (Nat.le_refl _)

theorem trim_pairsStr {m : AttrMap}
    (hg : ∀ kv ∈ m, GoodKeyP kv.1 ∧ '"' ∉ kv.2) :
    trim (pairsStr m) = (pairsStr m).tail := by
  rcases m with - | ⟨⟨k, v⟩, t⟩
  · rfl
  · have hkv := hg (k, v) (List.mem_cons_self _ _)
    have hk1 : k ≠ [] := hkv.1.1
    have hk2 : ∀ c ∈ k, isKeyChar c = true := hkv.1.2
    have hlast : ∀ c, (pairsStr ((k, v) :: t)).getLast? = some c → isGoSpace c = false := by
      intro c hc
      rw [pairsStr_getLast (by simp)] at hc
      simp only [Option.some.injEq] at hc
      subst hc
      decide
    rw [trim_eq_dropWhile hlast, pairsStr_cons]
    rcases k with - | ⟨a, b⟩
    · exact absurd rfl hk1
    · have ha : isKeyChar a = true := hk2 a (List.mem_cons_self a b)
      have hsp : isGoSpace ' ' = true := by decide
      rw [List.dropWhile_cons, if_pos hsp]
      simp only [List.cons_append]
      rw [List.dropWhile_cons, if_neg (by simp [isKeyChar_not_space ha])]
      rfl

/-- Scanning the trimmed attribute region that the encoder wrote recovers
exactly the written pairs. -/
theorem extractAttrs_trim_pairsStr {m : AttrMap}
    (hg : ∀ kv ∈ m, GoodKeyP kv.1 ∧ '"' ∉ kv.2) :
    extractAttrs (trim (pairsStr m)) = m := by
  rcases m with - | ⟨⟨k, v⟩, t⟩
  · rfl
  · rw [trim_pairsStr hg]
    have hkv := hg (k, v) (List.mem_cons_self _ _)
    have hk1 : k ≠ [] := hkv.1.1
    have hk2 : ∀ c ∈ k, isKeyChar c = true := hkv.1.2
    have hq : '"' ∉ v := hkv.2
    have hgt : ∀ kv ∈ t, GoodKeyP kv.1 ∧ '"' ∉ kv.2 :=
      fun kv hkv => hg kv (List.mem_cons_of_mem _ hkv)
    rw [pairsStr_cons]
    simp only [List.tail_cons]
    unfold extractAttrs
    have hXlen : 1 ≤ (k ++ ('=' :: '"' :: (v ++ '"' :: pairsStr t))).length := by
      simp only [List.length_append, List.length_cons]
      omega
    rcases hfl : (k ++ ('=' :: '"' :: (v ++ '"' :: pairsStr t))).length with - | L
    · omega
    · rw [extractAttrsFuel_step_some (tryAttrAt_of_shape hk1 hk2 hq (pairsStr t)) (by simp [hk1])]
      have hfl2 := hfl
      simp only [List.length_append, List.length_cons] at hfl2
      rw [extractAttrsFuel_congr (by omega) (Nat.le_refl (pairsStr t).length)]
      rw [extractAttrsFuel_pairsStr hgt (Nat.le_refl _)]

/-! ### Lemmas about number and comma parsing -/

theorem splitAtLastComma_of_shape {a nm : Str} (hnm : ',' ∉ nm) :
    splitAtLastComma (a ++ ',' :: nm) = some (a, nm) := by
  have hrev : (a ++ ',' :: nm).reverse = nm.reverse ++ ',' :: a.reverse := by
    simp
  have hall : ∀ c ∈ nm.reverse, (fun c => decide (c ≠ ',')) c = true := by
    intro c hc
    rw [List.mem_reverse] at hc
    simp only [decide_eq_true_eq]
    intro hcc
    exact hnm (hcc ▸ hc)
  have hcomma : (fun c => decide (c ≠ ',')) ',' = false := by decide
  obtain ⟨h1, h2⟩ := takeWhile_append_not hall hcomma a.reverse
  unfold splitAtLastComma
  rw [hrev, h2, h1]
  simp

theorem splitAtLastComma_spec {l a nm : Str} (h : splitAtLastComma l = some (a, nm)) :
    l = a ++ ',' :: nm ∧ ',' ∉ nm := by
  unfold splitAtLastComma at h
  rcases hd : l.reverse.dropWhile (fun c => decide (c ≠ ',')) with - | ⟨c1, before⟩ <;>
    rw [hd] at h
  · simp at h
  · by_cases hc : c1 = ','
    · subst hc
      simp only [Option.some.injEq, Prod.mk.injEq] at h
      obtain ⟨h1, h2⟩ := h
      have hsplit : l.reverse.takeWhile (fun c => decide (c ≠ ',')) ++ ',' :: before
          = l.reverse := by
        conv_rhs => rw [← List.takeWhile_append_dropWhile
          (p := fun c => decide (c ≠ ',')) (l := l.reverse)]
        rw [hd]
      have hl : l = before.reverse ++ ',' :: (l.reverse.takeWhile (fun c => decide (c ≠ ','))).reverse := by
        have hrr := congrArg List.reverse hsplit
        rw [List.reverse_reverse] at hrr
        conv_lhs => rw [← hrr]
        simp
      constructor
      · rw [hl, h1, h2]
      · rw [← h2]
        intro hm
        rw [List.mem_reverse] at hm
        have := List.mem_takeWhile_imp hm
        simp at this
    · exfalso
      have hh : (l.reverse.dropWhile (fun c => decide (c ≠ ','))).head? = some c1 := by
        rw [hd]
        rfl
      have hch := head?_dropWhile hh
      simp only [decide_eq_false_iff_not, Decidable.not_not] at hch
      exact hc hch

theorem natDigitsRev_lt : ∀ {f n : Nat}, ∀ d ∈ natDigitsRev f n, d < 10 := by
  intro f
  induction f with
  | zero => intro n d h; simp [natDigitsRev] at h
  | succ f ih =>
    intro n d h
    unfold natDigitsRev at h
    by_cases hn : n = 0
    · simp [hn] at h
    · rw [if_neg hn] at h
      rcases List.mem_cons.mp h with h1 | h2
      · subst h1
        omega
      · exact ih _ h2

theorem digitChar_spec {d : Nat} (h : d < 10) :
    (Char.ofNat (48 + d)).isDigit = true ∧ digitVal (Char.ofNat (48 + d)) = d := by
  interval_cases d <;> exact ⟨by decide, by decide⟩

theorem foldlTen_reverse : ∀ {f n acc : Nat}, n ≤ f →
    (natDigitsRev f n).reverse.foldl (fun a d => 10 * a + d) acc
      = acc * 10 ^ (natDigitsRev f n).length + n := by
  intro f
  induction f with
  | zero =>
    intro n acc h
    have : n = 0 := Nat.le_zero.mp h
    subst this
    simp [natDigitsRev]
  | succ f ih =>
    intro n acc h
    unfold natDigitsRev
    by_cases hn : n = 0
    · simp [hn]
    · rw [if_neg hn]
      have hrec : n / 10 ≤ f := by omega
      simp only [List.reverse_cons, List.foldl_append, List.foldl_cons, List.foldl_nil,
        List.length_cons]
      rw [ih hrec]
      have : 10 * (acc * 10 ^ (natDigitsRev f (n / 10)).length + n / 10) + n % 10
          = acc * 10 ^ ((natDigitsRev f (n / 10)).length + 1) + n := by
        rw [Nat.pow_succ]
        have hmod := Nat.div_add_mod n 10
        ring_nf
        omega
      rw [this]

theorem digitsToNat_natToStr (n : Nat) : digitsToNat (natToStr n) = n := by
  unfold natToStr
  by_cases hn : n = 0
  · subst hn
    decide
  · rw [if_neg hn]
    unfold natToDigitChars digitsToNat
    rw [List.foldl_map]
    have : ∀ (l : List Nat), (∀ d ∈ l, d < 10) → ∀ acc,
        l.foldl (fun a c => 10 * a + digitVal (Char.ofNat (48 + c))) acc
          = l.foldl (fun a d => 10 * a + d) acc := by
      intro l
      induction l with
      | nil => intro _ _; rfl
      | cons d t ihl =>
        intro hlt acc
        simp only [List.foldl_cons]
        rw [(digitChar_spec (hlt d (List.mem_cons_self d t))).2]
        exact ihl (fun x hx => hlt x (List.mem_cons_of_mem d hx)) _
    rw [this _ (fun d hd => natDigitsRev_lt d (List.mem_reverse.mp hd))]
    have hft := @foldlTen_reverse n n 0 (Nat.le_refl n)
    simpa using hft

theorem natToStr_ne_nil (n : Nat) : natToStr n ≠ [] := by
  unfold natToStr
  rcases n with - | m
  · simp
  · rw [if_neg (by omega)]
    unfold natToDigitChars
    unfold natDigitsRev
    rw [if_neg (by omega)]
    simp

theorem natToStr_digits {n : Nat} : ∀ c ∈ natToStr n, c.isDigit = true := by
  unfold natToStr
  by_cases hn : n = 0
  · subst hn
    intro c hc
    simp at hc
    subst hc
    decide
  · rw [if_neg hn]
    unfold natToDigitChars
    intro c hc
    rw [List.mem_map] at hc
    obtain ⟨d, hd, rfl⟩ := hc
    exact (digitChar_spec (natDigitsRev_lt d (List.mem_reverse.mp hd))).1

theorem takeNumBody_digits {n : Nat} {c : Char} (hc1 : c.isDigit = false)
    (hc2 : c ≠ '.') (neg : Bool) (r : Str) :
    takeNumBody neg (natToStr n ++ c :: r) = some (parseGoFloat neg (natToStr n) [], c :: r) := by
  obtain ⟨h1, h2⟩ := takeWhile_append_not (p := Char.isDigit) natToStr_digits hc1 r
  unfold takeNumBody
  rw [h1, h2]
  have hne : (natToStr n).isEmpty = false := by
    rcases hh : natToStr n with - | ⟨a, b⟩
    · exact absurd hh (natToStr_ne_nil n)
    · rfl
  rw [hne]
  simp only [Bool.false_eq_true, if_false]
  split
  · rename_i r2 heq
    exfalso
    rw [List.cons.injEq] at heq
    exact hc2 heq.1
  · rfl

theorem mkRat_one_num (z : Int) : (mkRat z 1).num = z := by
  simp [Rat.mkRat_one]

theorem mkRat_one_den (z : Int) : (mkRat z 1).den = 1 := by
  simp [Rat.mkRat_one]

theorem parseGoFloat_int (neg : Bool) (ip : Str) :
    parseGoFloat neg ip [] = mkRat (if neg then -(digitsToNat ip : Int) else (digitsToNat ip : Int)) 1 := by
  unfold parseGoFloat
  simp [digitsToNat]

theorem takeNum_intToStr (z : Int) {c : Char} (hc1 : c.isDigit = false)
    (hc2 : c ≠ '.') (r : Str) :
    takeNum (intToStr z ++ c :: r) = some (mkRat z 1, c :: r) := by
  unfold takeNum intToStr
  by_cases hz : z < 0
  · rw [if_pos hz]
    simp only [List.cons_append]
    have hsw : strStartsWith ['-'] ('-' :: (natToStr z.natAbs ++ c :: r)) = true := by
      simp [strStartsWith]
    rw [hsw]
    simp only [if_pos rfl, List.drop_succ_cons, List.drop_zero]
    rw [takeNumBody_digits hc1 hc2, parseGoFloat_int]
    simp only [if_pos rfl, digitsToNat_natToStr]
    have hzz : -((z.natAbs : Nat) : Int) = z := by omega
    rw [hzz]
    simp
  · rw [if_neg hz]
    have hd : ∀ a ∈ natToStr z.natAbs, a ≠ '-' := by
      intro a ha hcc
      have := natToStr_digits a ha
      rw [hcc] at this
      exact absurd this (by decide)
    have hsw : strStartsWith ['-'] (natToStr z.natAbs ++ c :: r) = false := by
      rcases hh : natToStr z.natAbs with - | ⟨a, b⟩
      · exact absurd hh (natToStr_ne_nil _)
      · simp only [List.cons_append, strStartsWith]
        have ha : a ≠ '-' := fun hcc => hd a (hh ▸ List.mem_cons_self a b) hcc
        simp only [Bool.and_eq_false_iff]
        left
        simpa using fun hcc => ha hcc.symm
    rw [hsw]
    simp only [Bool.false_eq_true, if_false]
    rw [takeNumBody_digits hc1 hc2, parseGoFloat_int]
    simp only [Bool.false_eq_true, if_false, digitsToNat_natToStr]
    have hzz : ((z.natAbs : Nat) : Int) = z := by omega
    rw [hzz]

theorem roundHalfEven_int {q : ℚ} (h : q.den = 1) : roundHalfEven q = q.num := by
  unfold roundHalfEven
  rw [h]
  simp [Int.fdiv_one]

theorem fmtF0_int {q : ℚ} (h : q.den = 1) : fmtF0 q = intToStr q.num := by
  unfold fmtF0
  rw [roundHalfEven_int h]

/-! ### Well-formedness invariants of decoder output -/

/-- A value as the attribute regex produces: free of quotes and newlines. -/
def GoodValP (v : Str) : Prop := '"' ∉ v ∧ '\n' ∉ v

/-- An optional typed string field holding a regex-produced value. -/
def GoodOptVal : Option Str → Prop
  | none => True
  | some v => GoodValP v

/-- An optional URL field holding a parse-accepted, regex-produced value. -/
def GoodQuotedURL : Option GoURL → Prop
  | none => True
  | some u => urlParseOk u.raw = true ∧ GoodValP u.raw

/-- An extra-attribute map as the decoder builds it: unique keys, each a
regex key not in the recognized set, each value a regex value. -/
def GoodAttrMap (banned : List Str) (m : AttrMap) : Prop :=
  (m.map Prod.fst).Nodup ∧ ∀ kv ∈ m, GoodKeyP kv.1 ∧ GoodValP kv.2 ∧ kv.1 ∉ banned

def recognizedTrackKeys : List Str :=
  [tvgIdKey, tvgNameKey, tvgLanguageKey, tvgLogoKey, groupTitleKey]

def recognizedHeaderKeys : List Str := [urlTvgKey, xTvgUrlKey]

/-- The attribute-derived fields of a track, as `parseEXTINFLine`'s
attribute loop writes them. -/
def GoodAttrFields (t : Track) : Prop :=
  GoodOptVal t.tvgID ∧ GoodOptVal t.tvgName ∧ GoodOptVal t.tvgLanguage ∧
  GoodQuotedURL t.tvgLogo ∧ GoodOptVal t.groupTitle ∧
  GoodAttrMap recognizedTrackKeys t.extraAttributes

/-- One extra directive line as the decoder stores it. -/
def GoodDirective (d : Str) : Prop :=
  strStartsWith ['#'] d = true ∧ strStartsWith (("#EXTINF:").toList) d = false ∧
    trim d = d ∧ '\n' ∉ d

/-- Everything `parseEXTINFLine` guarantees about the track it builds
(before the URL line is seen). -/
def GoodTrackCore (t : Track) : Prop :=
  trim t.name = t.name ∧ ',' ∉ t.name ∧ '\n' ∉ t.name ∧ GoodAttrFields t ∧
  ∀ d ∈ t.extraDirectives, GoodDirective d

/-- A track URL line as the decoder consumed it. -/
def GoodURLStr (w : Str) : Prop :=
  urlParseOk w = true ∧ trim w = w ∧ w ≠ [] ∧ strStartsWith ['#'] w = false ∧ '\n' ∉ w

/-- Everything the decoder guarantees about a completed track. -/
def GoodTrack (t : Track) : Prop :=
  GoodTrackCore t ∧ ∃ u, t.url = some u ∧ GoodURLStr u.raw

/-- The header-derived fields of a playlist, as `parseEXTM3ULine`'s
attribute loop writes them. -/
def GoodHeaderFields (p : Playlist) : Prop :=
  GoodQuotedURL p.tvgURL ∧ GoodQuotedURL p.xtvgURL ∧
  GoodAttrMap recognizedHeaderKeys p.extraAttributes

/-- Everything the decoder guarantees about the playlist it returns. -/
def GoodPlaylist (p : Playlist) : Prop :=
  GoodHeaderFields p ∧ ∀ t ∈ p.tracks, GoodTrack t

/-! ### Lemmas about `mapInsert` -/

theorem mapInsert_fresh {k : Str} (v : Str) {m : AttrMap}
    (h : k ∉ m.map Prod.fst) : mapInsert k v m = m ++ [(k, v)] := by
  induction m with
  | nil => rfl
  | cons kv t ih =>
    rcases kv with ⟨k', v'⟩
    have hne : k' ≠ k := by
      intro hcc
      exact h (by simp [hcc])
    unfold mapInsert
    rw [if_neg hne]
    rw [ih (fun hm => h (by simp [hm]))]
    rfl

theorem keys_mapInsert (k v : Str) (m : AttrMap) :
    (mapInsert k v m).map Prod.fst
      = if k ∈ m.map Prod.fst then m.map Prod.fst else m.map Prod.fst ++ [k] := by
  induction m with
  | nil => rfl
  | cons kv t ih =>
    rcases kv with ⟨k', v'⟩
    unfold mapInsert
    by_cases hk : k' = k
    · subst hk
      simp
    · rw [if_neg hk]
      simp only [List.map_cons, List.mem_cons]
      by_cases hm : k ∈ t.map Prod.fst
      · rw [if_pos (Or.inr hm)]
        simp only [List.map_cons, ih, if_pos hm]
      · rw [if_neg (by
            simp only [not_or]
            exact ⟨fun hcc => hk hcc.symm, hm⟩)]
        simp only [List.map_cons, ih, if_neg hm]
        rfl

theorem mem_mapInsert {kv : Str × Str} {k v : Str} {m : AttrMap}
    (h : kv ∈ mapInsert k v m) : kv ∈ m ∨ kv = (k, v) := by
  induction m with
  | nil =>
    simp only [mapInsert, List.mem_singleton] at h
    exact Or.inr h
  | cons kv' t ih =>
    rcases kv' with ⟨k', v'⟩
    unfold mapInsert at h
    by_cases hk : k' = k
    · rw [if_pos hk] at h
      rcases List.mem_cons.mp h with h1 | h2
      · subst h1
        exact Or.inr (by rw [hk])
      · exact Or.inl (List.mem_cons_of_mem _ h2)
    · rw [if_neg hk] at h
      rcases List.mem_cons.mp h with h1 | h2
      · exact Or.inl (h1 ▸ List.mem_cons_self _ _)
      · rcases ih h2 with h3 | h3
        · exact Or.inl (List.mem_cons_of_mem _ h3)
        · exact Or.inr h3

theorem mapInsert_nodup {k v : Str} {m : AttrMap}
    (h : (m.map Prod.fst).Nodup) : ((mapInsert k v m).map Prod.fst).Nodup := by
  rw [keys_mapInsert]
  by_cases hk : k ∈ m.map Prod.fst
  · rw [if_pos hk]
    exact h
  · rw [if_neg hk]
    rw [List.nodup_append]
    refine ⟨h, List.nodup_singleton k, ?_⟩
    intro x hx hy
    simp only [List.mem_singleton] at hy
    subst hy
    exact hk hx

/-! ### The attribute loops preserve well-formedness -/

theorem applyExtinfAttr_fields (t : Track) (kv : Str × Str) :
    (applyExtinfAttr t kv).name = t.name ∧ (applyExtinfAttr t kv).length = t.length ∧
    (applyExtinfAttr t kv).url = t.url ∧
    (applyExtinfAttr t kv).extraDirectives = t.extraDirectives := by
  unfold applyExtinfAttr
  split_ifs <;> first
    | exact ⟨rfl, rfl, rfl, rfl⟩
    | (rcases urlParse kv.2 with - | u <;> exact ⟨rfl, rfl, rfl, rfl⟩)

theorem foldl_applyExtinfAttr_fields (l : List (Str × Str)) (t : Track) :
    ((l.foldl applyExtinfAttr t).name = t.name ∧
      (l.foldl applyExtinfAttr t).length = t.length ∧
      (l.foldl applyExtinfAttr t).url = t.url ∧
      (l.foldl applyExtinfAttr t).extraDirectives = t.extraDirectives) := by
  induction l generalizing t with
  | nil => exact ⟨rfl, rfl, rfl, rfl⟩
  | cons kv rest ih =>
    simp only [List.foldl_cons]
    obtain ⟨f1, f2, f3, f4⟩ := applyExtinfAttr_fields t kv
    obtain ⟨g1, g2, g3, g4⟩ := ih (applyExtinfAttr t kv)
    exact ⟨g1.trans f1, g2.trans f2, g3.trans f3, g4.trans f4⟩

theorem urlParse_some {v : Str} {u : GoURL} (h : urlParse v = some u) :
    u.raw = v ∧ urlParseOk v = true := by
  unfold urlParse at h
  by_cases hv : urlParseOk v
  · rw [if_pos hv] at h
    simp only [Option.some.injEq] at h
    subst h
    exact ⟨rfl, hv⟩
  · rw [if_neg hv] at h
    simp at h

theorem applyExtinfAttr_goodInv {t : Track} {kv : Str × Str}
    (hkv : GoodKeyP kv.1 ∧ GoodValP kv.2) (h : GoodAttrFields t) :
    GoodAttrFields (applyExtinfAttr t kv) := by
  obtain ⟨h1, h2, h3, h4, h5, h6⟩ := h
  unfold applyExtinfAttr
  split_ifs with e1 e2 e3 e4 e5
  · exact ⟨hkv.2, h2, h3, h4, h5, h6⟩
  · exact ⟨h1, hkv.2, h3, h4, h5, h6⟩
  · exact ⟨h1, h2, hkv.2, h4, h5, h6⟩
  · rcases hu : urlParse kv.2 with - | u
    · exact ⟨h1, h2, h3, h4, h5, h6⟩
    · obtain ⟨hraw, hok⟩ := urlParse_some hu
      exact ⟨h1, h2, h3, ⟨hraw ▸ hok, hraw ▸ hkv.2⟩, h5, h6⟩
  · exact ⟨h1, h2, h3, h4, hkv.2, h6⟩
  · refine ⟨h1, h2, h3, h4, h5, mapInsert_nodup h6.1, ?_⟩
    intro kv' hkv'
    rcases mem_mapInsert hkv' with hm | hm
    · exact h6.2 kv' hm
    · subst hm
      refine ⟨hkv.1, hkv.2, ?_⟩
      simp only [recognizedTrackKeys, List.mem_cons, List.mem_singleton]
      push_neg
      exact ⟨e1, e2, e3, e4, e5, by simp⟩

theorem foldl_applyExtinfAttr_goodInv {l : List (Str × Str)}
    (hl : ∀ kv ∈ l, GoodKeyP kv.1 ∧ GoodValP kv.2) {t : Track}
    (h : GoodAttrFields t) : GoodAttrFields (l.foldl applyExtinfAttr t) := by
  induction l generalizing t with
  | nil => exact h
  | cons kv rest ih =>
    simp only [List.foldl_cons]
    exact ih (fun x hx => hl x (List.mem_cons_of_mem kv hx))
      (applyExtinfAttr_goodInv (hl kv (List.mem_cons_self kv rest)) h)

theorem takeNumBody_mem {neg : Bool} {l1 : Str} {q : ℚ} {r1 : Str}
    (h : takeNumBody neg l1 = some (q, r1)) : ∀ c ∈ r1, c ∈ l1 := by
  unfold takeNumBody at h
  by_cases he : (l1.takeWhile Char.isDigit).isEmpty
  · simp [he] at h
  · simp only [he, Bool.false_eq_true, if_false] at h
    have hsub : ∀ c ∈ l1.dropWhile Char.isDigit, c ∈ l1 := fun c hc => mem_dropWhile hc
    rcases hd : l1.dropWhile Char.isDigit with - | ⟨c1, r2⟩ <;> rw [hd] at h
    · simp only [Option.some.injEq, Prod.mk.injEq] at h
      intro c hc
      rw [← h.2] at hc
      simp at hc
    · by_cases hdot : c1 = '.'
      · subst hdot
        simp only [Option.some.injEq, Prod.mk.injEq] at h
        intro c hc
        rw [← h.2] at hc
        apply hsub
        rw [hd]
        exact List.mem_cons_of_mem _ (mem_dropWhile hc)
      · have : (match c1 :: r2 with
            | '.' :: r2 => some (parseGoFloat neg (l1.takeWhile Char.isDigit)
                (r2.takeWhile Char.isDigit), r2.dropWhile Char.isDigit)
            | r1 => some (parseGoFloat neg (l1.takeWhile Char.isDigit) [], r1))
            = some (parseGoFloat neg (l1.takeWhile Char.isDigit) [], c1 :: r2) := by
          split
          · rename_i r2' heq
            rw [List.cons.injEq] at heq
            exact absurd heq.1 hdot
          · rfl
        rw [this] at h
        simp only [Option.some.injEq, Prod.mk.injEq] at h
        intro c hc
        rw [← h.2] at hc
        apply hsub
        rw [hd]
        exact hc

theorem takeNum_mem {l : Str} {q : ℚ} {r1 : Str}
    (h : takeNum l = some (q, r1)) : ∀ c ∈ r1, c ∈ l := by
  unfold takeNum at h
  by_cases hp : strStartsWith ['-'] l
  · rw [if_pos hp] at h
    intro c hc
    exact List.mem_of_mem_drop (takeNumBody_mem h c hc)
  · rw [if_neg hp] at h
    exact takeNumBody_mem h

theorem parseExtinfShape_some {l : Str} {q : ℚ} {attrs nm : Str}
    (h : parseExtinfShape l = some (q, attrs, nm)) :
    '\n' ∉ l ∧ ',' ∉ nm ∧ (∀ c ∈ nm, c ∈ l) ∧ (∀ c ∈ attrs, c ∈ l) := by
  unfold parseExtinfShape at h
  by_cases hnl : '\n' ∈ l
  · simp [hnl] at h
  · rw [if_neg hnl] at h
    by_cases hsw : strStartsWith (("#EXTINF:").toList) l
    · rw [if_pos hsw] at h
      rcases ht : takeNum (l.drop 8) with - | ⟨q', r1⟩ <;> rw [ht] at h <;> dsimp only at h
      · simp at h
      · rcases hs : splitAtLastComma r1 with - | ⟨a', n'⟩ <;> rw [hs] at h <;> dsimp only at h
        · simp at h
        · simp only [Option.some.injEq, Prod.mk.injEq] at h
          obtain ⟨-, h2, h3⟩ := h
          subst h2 h3
          obtain ⟨hdec, hnc⟩ := splitAtLastComma_spec hs
          have hr1 : ∀ c ∈ r1, c ∈ l :=
            fun c hc => List.mem_of_mem_drop (takeNum_mem ht c hc)
          refine ⟨hnl, hnc, ?_, ?_⟩
          · intro c hc
            apply hr1
            rw [hdec]
            exact List.mem_append.mpr (Or.inr (List.mem_cons_of_mem _ hc))
          · intro c hc
            apply hr1
            rw [hdec]
            exact List.mem_append.mpr (Or.inl hc)
    · rw [if_neg hsw] at h
      simp at h

theorem parseEXTINFLine_good {n : Nat} {line : Str} {t : Track}
    (h : parseEXTINFLine n line = .ok t) :
    GoodTrackCore t ∧ t.url = none ∧ t.extraDirectives = [] := by
  unfold parseEXTINFLine at h
  rcases hs : parseExtinfShape line with - | ⟨q, attrs, nm⟩ <;> rw [hs] at h
  · simp at h
  · simp only [Except.ok.injEq] at h
    subst h
    obtain ⟨hnl, hnc, hnm, hat⟩ := parseExtinfShape_some hs
    have hpairs : ∀ kv ∈ extractAttrs (trim attrs), GoodKeyP kv.1 ∧ GoodValP kv.2 := by
      intro kv hkv
      obtain ⟨g1, g2, g3, g4⟩ := extractAttrs_mem hkv
      refine ⟨g1, g2, ?_⟩
      intro hm
      exact hnl (hat '\n' (mem_trim (g4 '\n' hm)))
    have hbase : GoodAttrFields { length := q } := by
      refine ⟨trivial, trivial, trivial, trivial, trivial, by simp, ?_⟩
      intro kv hkv
      simp at hkv
    have hfold := foldl_applyExtinfAttr_goodInv hpairs hbase
    obtain ⟨f1, f2, f3, f4⟩ :=
      foldl_applyExtinfAttr_fields (extractAttrs (trim attrs)) { length := q }
    refine ⟨⟨?_, ?_, ?_, ?_, ?_⟩, ?_, ?_⟩
    · exact trim_idem nm
    · intro hm
      exact hnc (mem_trim hm)
    · intro hm
      exact hnl (hnm '\n' (mem_trim hm))
    · exact hfold
    · intro d hd
      simp only [f4] at hd
      simp at hd
    · exact f3
    · exact f4

theorem applyHeaderAttr_tracks (p : Playlist) (kv : Str × Str) :
    (applyHeaderAttr p kv).tracks = p.tracks := by
  unfold applyHeaderAttr
  split_ifs <;> first
    | rfl
    | (rcases urlParse kv.2 with - | u <;> rfl)

theorem foldl_applyHeaderAttr_tracks (l : List (Str × Str)) (p : Playlist) :
    (l.foldl applyHeaderAttr p).tracks = p.tracks := by
  induction l generalizing p with
  | nil => rfl
  | cons kv rest ih =>
    simp only [List.foldl_cons]
    rw [ih, applyHeaderAttr_tracks]

theorem applyHeaderAttr_goodInv {p : Playlist} {kv : Str × Str}
    (hkv : GoodKeyP kv.1 ∧ GoodValP kv.2) (h : GoodHeaderFields p) :
    GoodHeaderFields (applyHeaderAttr p kv) := by
  obtain ⟨h1, h2, h3⟩ := h
  unfold applyHeaderAttr
  split_ifs with e1 e2
  · rcases hu : urlParse kv.2 with - | u
    · exact ⟨h1, h2, h3⟩
    · obtain ⟨hraw, hok⟩ := urlParse_some hu
      exact ⟨⟨hraw ▸ hok, hraw ▸ hkv.2⟩, h2, h3⟩
  · rcases hu : urlParse kv.2 with - | u
    · exact ⟨h1, h2, h3⟩
    · obtain ⟨hraw, hok⟩ := urlParse_some hu
      exact ⟨h1, ⟨hraw ▸ hok, hraw ▸ hkv.2⟩, h3⟩
  · refine ⟨h1, h2, mapInsert_nodup h3.1, ?_⟩
    intro kv' hkv'
    rcases mem_mapInsert hkv' with hm | hm
    · exact h3.2 kv' hm
    · subst hm
      refine ⟨hkv.1, hkv.2, ?_⟩
      simp only [recognizedHeaderKeys, List.mem_cons, List.mem_singleton]
      push_neg
      exact ⟨e1, e2, by simp⟩

theorem foldl_applyHeaderAttr_goodInv {l : List (Str × Str)}
    (hl : ∀ kv ∈ l, GoodKeyP kv.1 ∧ GoodValP kv.2) {p : Playlist}
    (h : GoodHeaderFields p) : GoodHeaderFields (l.foldl applyHeaderAttr p) := by
  induction l generalizing p with
  | nil => exact h
  | cons kv rest ih =>
    simp only [List.foldl_cons]
    exact ih (fun x hx => hl x (List.mem_cons_of_mem kv hx))
      (applyHeaderAttr_goodInv (hl kv (List.mem_cons_self kv rest)) h)

theorem headerRemainderMatch_mem {r t : Str} (h : headerRemainderMatch r = some t) :
    ∀ c ∈ t, c ∈ r := by
  unfold headerRemainderMatch at h
  by_cases he : r.isEmpty
  · rw [if_pos he] at h
    simp only [Option.some.injEq] at h
    subst h
    intro c hc
    simp at hc
  · rw [if_neg he] at h
    by_cases hsp : isRegexSpace r.head!
    · rw [if_pos hsp] at h
      by_cases hn : '\n' ∈ r.dropWhile isRegexSpace
      · rw [if_pos hn] at h
        simp at h
      · rw [if_neg hn] at h
        simp only [Option.some.injEq] at h
        subst h
        exact fun c hc => mem_dropWhile hc
    · rw [if_neg hsp] at h
      simp at h

theorem parseEXTM3ULine_good {n : Nat} {line : Str} {p' : Playlist}
    (hnl : '\n' ∉ line) (h : parseEXTM3ULine n line Playlist.empty = .ok p') :
    GoodHeaderFields p' ∧ p'.tracks = [] := by
  unfold parseEXTM3ULine at h
  by_cases hsw : strStartsWith (("#EXTM3U").toList) line
  · rw [if_pos hsw] at h
    rcases hm : headerRemainderMatch (line.drop 7) with - | r <;> rw [hm] at h
    · simp at h
    · simp only [Except.ok.injEq] at h
      subst h
      have hpairs : ∀ kv ∈ extractAttrs (trim r), GoodKeyP kv.1 ∧ GoodValP kv.2 := by
        intro kv hkv
        obtain ⟨g1, g2, g3, g4⟩ := extractAttrs_mem hkv
        refine ⟨g1, g2, ?_⟩
        intro hmem
        have : '\n' ∈ line :=
          List.mem_of_mem_drop (headerRemainderMatch_mem hm '\n' (mem_trim (g4 '\n' hmem)))
        exact hnl this
      have hbase : GoodHeaderFields Playlist.empty := by
        refine ⟨trivial, trivial, by simp [Playlist.empty], ?_⟩
        intro kv hkv
        simp [Playlist.empty] at hkv
      refine ⟨foldl_applyHeaderAttr_goodInv hpairs hbase, ?_⟩
      rw [foldl_applyHeaderAttr_tracks]
      rfl
  · rw [if_neg hsw] at h
    simp at h

/-! ### The decode loop preserves well-formedness -/

theorem trim_no_nl {s : Str} (h : '\n' ∉ s) : '\n' ∉ trim s :=
  fun hm => h (mem_trim hm)

theorem decodeLoop_good : ∀ {segs : List Str} {n : Nat} {cur : Option Track}
    {p pf : Playlist},
    (∀ s ∈ segs, '\n' ∉ s) → GoodPlaylist p →
    (∀ t, cur = some t → GoodTrackCore t ∧ t.url = none) →
    decodeLoop segs n cur p = (pf, none) → GoodPlaylist pf := by
  intro segs
  induction segs with
  | nil =>
    intro n cur p pf _ hp _ h
    unfold decodeLoop at h
    simp only [Prod.mk.injEq] at h
    rw [← h.1]
    exact hp
  | cons s rest ih =>
    intro n cur p pf hnl hp hcur h
    have hs : '\n' ∉ s := hnl s (List.mem_cons_self s rest)
    have hrest : ∀ x ∈ rest, '\n' ∉ x := fun x hx => hnl x (List.mem_cons_of_mem s hx)
    have hline : '\n' ∉ trim s := trim_no_nl hs
    unfold decodeLoop at h
    by_cases h1 : trim s = []
    · rw [if_pos h1] at h
      by_cases h2 : rest.isEmpty
      · rw [if_pos h2] at h
        rcases cur with - | t
        · simp only [Prod.mk.injEq] at h
          rw [← h.1]
          exact hp
        · simp at h
      · rw [if_neg h2] at h
        exact ih hrest hp hcur h
    · rw [if_neg h1] at h
      by_cases h3 : strStartsWith (("#EXTINF:").toList) (trim s)
      · rw [if_pos h3] at h
        rcases cur with - | t
        · rcases hpe : parseEXTINFLine (n + 1) (trim s) with e | t <;> rw [hpe] at h <;>
            dsimp only at h
          · simp at h
          · by_cases h4 : rest.isEmpty
            · rw [if_pos h4] at h
              simp only [Prod.mk.injEq] at h
              rw [← h.1]
              exact hp
            · rw [if_neg h4] at h
              obtain ⟨hgc, hgu, hgd⟩ := parseEXTINFLine_good hpe
              refine ih hrest hp ?_ h
              intro t' ht'
              simp only [Option.some.injEq] at ht'
              subst ht'
              obtain ⟨c1, c2, c3, c4, -⟩ := hgc
              refine ⟨⟨c1, c2, c3, c4, ?_⟩, hgu⟩
              intro d hd
              simp at hd
        · simp at h
      · rw [if_neg h3] at h
        by_cases h5 : strStartsWith ['#'] (trim s)
        · rw [if_pos h5] at h
          rcases cur with - | t
          · simp at h
          · dsimp only at h
            by_cases h4 : rest.isEmpty
            · rw [if_pos h4] at h
              simp only [Prod.mk.injEq] at h
              rw [← h.1]
              exact hp
            · rw [if_neg h4] at h
              obtain ⟨⟨c1, c2, c3, c4, c5⟩, hu⟩ := hcur t rfl
              refine ih hrest hp ?_ h
              intro t' ht'
              simp only [Option.some.injEq] at ht'
              subst ht'
              refine ⟨⟨c1, c2, c3, c4, ?_⟩, hu⟩
              intro d hd
              simp only [List.mem_append, List.mem_singleton] at hd
              rcases hd with hd | hd
              · exact c5 d hd
              · subst hd
                exact ⟨h5, by simpa using h3, trim_idem s, hline⟩
        · rw [if_neg h5] at h
          rcases cur with - | t
          · simp at h
          · dsimp only at h
            obtain ⟨hgc, hu⟩ := hcur t rfl
            rw [if_pos hu] at h
            rcases hup : urlParse (trim s) with - | u <;> rw [hup] at h <;> dsimp only at h
            · simp at h
            · obtain ⟨hraw, hok⟩ := urlParse_some hup
              have hnew : GoodTrack { t with url := some u } := by
                refine ⟨?_, u, rfl, ?_⟩
                · obtain ⟨c1, c2, c3, c4, c5⟩ := hgc
                  exact ⟨c1, c2, c3, c4, c5⟩
                · rw [hraw]
                  exact ⟨hok, trim_idem s, h1, by simpa using h5, hline⟩
              have hp' : GoodPlaylist
                  { p with tracks := p.tracks ++ [{ t with url := some u }] } := by
                refine ⟨hp.1, ?_⟩
                intro x hx
                simp only [List.mem_append, List.mem_singleton] at hx
                rcases hx with hx | hx
                · exact hp.2 x hx
                · subst hx
                  exact hnew
              by_cases h4 : rest.isEmpty
              · rw [if_pos h4] at h
                simp only [Prod.mk.injEq] at h
                rw [← h.1]
                exact hp'
              · rw [if_neg h4] at h
                refine ih hrest hp' ?_ h
                intro t' ht'
                simp at ht'

theorem decodeCore_good {s : Str} {pf : Playlist}
    (h : decodeCore Playlist.empty s = (pf, none)) : GoodPlaylist pf := by
  unfold decodeCore at h
  rcases hsp : splitOnNl s with - | ⟨s0, rest⟩
  · exact absurd hsp (splitOnNl_ne_nil s)
  · rw [hsp] at h
    dsimp only at h
    by_cases h2 : rest.isEmpty
    · rw [if_pos h2] at h
      simp at h
    · rw [if_neg h2] at h
      by_cases h3 : strStartsWith (("#EXTM3U").toList) (trim s0)
      · rw [if_pos h3] at h
        rcases hph : parseEXTM3ULine 1 (trim s0) Playlist.empty with e | p1 <;>
          rw [hph] at h <;> dsimp only at h
        · simp at h
        · simp only [Prod.mk.injEq] at h
          obtain ⟨hfst, hsnd⟩ := h
          have hloopsnd : (decodeLoop rest 1 none p1).2 = none := by
            rcases hd2 : (decodeLoop rest 1 none p1).2 with - | e
            · rfl
            · rw [hd2] at hsnd
              simp at hsnd
          have hloop : decodeLoop rest 1 none p1 = (pf, none) := by
            rw [Prod.ext_iff]
            exact ⟨hfst, hloopsnd⟩
          have hs0 : '\n' ∉ s0 := mem_splitOnNl (hsp ▸ List.mem_cons_self s0 rest)
          obtain ⟨hhf, htr⟩ := parseEXTM3ULine_good (trim_no_nl hs0) hph
          have hp1 : GoodPlaylist p1 := by
            refine ⟨hhf, ?_⟩
            intro t ht
            rw [htr] at ht
            simp at ht
          have hrest : ∀ x ∈ rest, '\n' ∉ x :=
            fun x hx => mem_splitOnNl (hsp ▸ List.mem_cons_of_mem s0 hx)
          exact decodeLoop_good hrest hp1 (fun t ht => by simp at ht) hloop
      · rw [if_neg h3] at h
        simp at h

/-! ### Lemmas about the `tvg-logo` attribute routing -/

theorem applyExtinfAttr_logo_key {t : Track} {kv : Str × Str}
    (h : tvgLogoKey ∉ t.extraAttributes.map Prod.fst) :
    tvgLogoKey ∉ (applyExtinfAttr t kv).extraAttributes.map Prod.fst := by
  unfold applyExtinfAttr
  split_ifs with e1 e2 e3 e4 e5
  · exact h
  · exact h
  · exact h
  · rcases urlParse kv.2 with - | u <;> exact h
  · exact h
  · rw [keys_mapInsert]
    by_cases hm : kv.1 ∈ t.extraAttributes.map Prod.fst
    · rw [if_pos hm]
      exact h
    · rw [if_neg hm]
      intro hmem
      rcases List.mem_append.mp hmem with h1 | h1
      · exact h h1
      · simp only [List.mem_singleton] at h1
        exact e4 h1.symm

theorem foldl_applyExtinfAttr_logo_key {l : List (Str × Str)} {t : Track}
    (h : tvgLogoKey ∉ t.extraAttributes.map Prod.fst) :
    tvgLogoKey ∉ ((l.foldl applyExtinfAttr t).extraAttributes.map Prod.fst) := by
  induction l generalizing t with
  | nil => exact h
  | cons kv rest ih =>
    simp only [List.foldl_cons]
    exact ih (applyExtinfAttr_logo_key h)

theorem applyExtinfAttr_logo_none {t : Track} {kv : Str × Str}
    (hv : kv.1 = tvgLogoKey → urlParse kv.2 = none) (h : t.tvgLogo = none) :
    (applyExtinfAttr t kv).tvgLogo = none := by
  unfold applyExtinfAttr
  split_ifs with e1 e2 e3 e4 e5
  · exact h
  · exact h
  · exact h
  · rw [hv e4]
    exact h
  · exact h
  · exact h

theorem foldl_applyExtinfAttr_logo_none {l : List (Str × Str)}
    (hl : ∀ v, (tvgLogoKey, v) ∈ l → urlParse v = none) {t : Track}
    (h : t.tvgLogo = none) : (l.foldl applyExtinfAttr t).tvgLogo = none := by
  induction l generalizing t with
  | nil => exact h
  | cons kv rest ih =>
    simp only [List.foldl_cons]
    refine ih (fun v hv => hl v (List.mem_cons_of_mem kv hv)) ?_
    refine applyExtinfAttr_logo_none ?_ h
    intro hk
    have : (tvgLogoKey, kv.2) ∈ kv :: rest := by
      rw [← hk]
      exact List.mem_cons_self kv rest
    exact hl kv.2 this

/-! ### Line numbers of loop errors -/

theorem parseEXTINFLine_err {n : Nat} {line : Str} {e : ErrInvalidPlaylist}
    (h : parseEXTINFLine n line = .error e) :
    e.lineNumber = n ∧ e.message = extinfMalformedMsg ∧ e.line = line := by
  unfold parseEXTINFLine at h
  rcases hs : parseExtinfShape line with - | ⟨q, attrs, nm⟩ <;> rw [hs] at h <;>
    dsimp only at h
  · simp only [Except.error.injEq] at h
    rw [← h]
    exact ⟨rfl, rfl, rfl⟩
  · simp at h

theorem parseEXTM3ULine_err {n : Nat} {line : Str} {p : Playlist}
    {e : ErrInvalidPlaylist} (h : parseEXTM3ULine n line p = .error e) :
    e.lineNumber = n ∧ e.message = extm3uMalformedMsg ∧ e.line = line := by
  unfold parseEXTM3ULine at h
  by_cases hsw : strStartsWith (("#EXTM3U").toList) line
  · rw [if_pos hsw] at h
    rcases hm : headerRemainderMatch (line.drop 7) with - | r <;> rw [hm] at h <;>
      dsimp only at h
    · simp only [Except.error.injEq] at h
      rw [← h]
      exact ⟨rfl, rfl, rfl⟩
    · simp at h
  · rw [if_neg hsw] at h
    simp only [Except.error.injEq] at h
    rw [← h]
    exact ⟨rfl, rfl, rfl⟩

theorem decodeLoop_err_lineNumber : ∀ {segs : List Str} {n : Nat} {cur : Option Track}
    {p pf : Playlist} {e : ErrInvalidPlaylist},
    decodeLoop segs n cur p = (pf, some e) → n + 1 ≤ e.lineNumber := by
  intro segs
  induction segs with
  | nil =>
    intro n cur p pf e h
    unfold decodeLoop at h
    simp at h
  | cons s rest ih =>
    intro n cur p pf e h
    unfold decodeLoop at h
    by_cases h1 : trim s = []
    · rw [if_pos h1] at h
      by_cases h2 : rest.isEmpty
      · rw [if_pos h2] at h
        rcases cur with - | t <;> dsimp only at h <;>
          simp only [Prod.mk.injEq] at h
        · exact absurd h.2 (by simp)
        · simp only [Option.some.injEq] at h
          rw [← h.2]
          try simp
      · rw [if_neg h2] at h
        have := ih h
        omega
    · rw [if_neg h1] at h
      by_cases h3 : strStartsWith (("#EXTINF:").toList) (trim s)
      · rw [if_pos h3] at h
        rcases cur with - | t <;> dsimp only at h
        · rcases hpe : parseEXTINFLine (n + 1) (trim s) with e' | t <;> rw [hpe] at h <;>
            dsimp only at h
          · simp only [Prod.mk.injEq, Option.some.injEq] at h
            rw [← h.2]
            rw [(parseEXTINFLine_err hpe).1]
          · by_cases h4 : rest.isEmpty
            · rw [if_pos h4] at h
              simp at h
            · rw [if_neg h4] at h
              have := ih h
              omega
        · simp only [Prod.mk.injEq, Option.some.injEq] at h
          rw [← h.2]
          try simp
      · rw [if_neg h3] at h
        by_cases h5 : strStartsWith ['#'] (trim s)
        · rw [if_pos h5] at h
          rcases cur with - | t <;> dsimp only at h
          · simp only [Prod.mk.injEq, Option.some.injEq] at h
            rw [← h.2]
            try simp
          · by_cases h4 : rest.isEmpty
            · rw [if_pos h4] at h
              simp at h
            · rw [if_neg h4] at h
              have := ih h
              omega
        · rw [if_neg h5] at h
          rcases cur with - | t <;> dsimp only at h
          · simp only [Prod.mk.injEq, Option.some.injEq] at h
            rw [← h.2]
            try simp
          · by_cases hu : t.url = none
            · rw [if_pos hu] at h
              rcases hup : urlParse (trim s) with - | u <;> rw [hup] at h <;> dsimp only at h
              · simp only [Prod.mk.injEq, Option.some.injEq] at h
                rw [← h.2]
                try simp
              · by_cases h4 : rest.isEmpty
                · rw [if_pos h4] at h
                  simp at h
                · rw [if_neg h4] at h
                  have := ih h
                  omega
            · rw [if_neg hu] at h
              simp only [Prod.mk.injEq, Option.some.injEq] at h
              rw [← h.2]
              try simp

theorem decodeLoop_TI_eof_lineNumber : ∀ {segs : List Str} {n : Nat} {cur : Option Track}
    {p pf : Playlist} {e : ErrInvalidPlaylist},
    decodeLoop segs n cur p = (pf, some e) → e.message = trackIncompleteMsg →
    e.line = [] → e.lineNumber = n + segs.length := by
  intro segs
  induction segs with
  | nil =>
    intro n cur p pf e h _ _
    unfold decodeLoop at h
    simp at h
  | cons s rest ih =>
    intro n cur p pf e h hmsg hline
    unfold decodeLoop at h
    by_cases h1 : trim s = []
    · rw [if_pos h1] at h
      by_cases h2 : rest.isEmpty
      · rw [if_pos h2] at h
        rcases cur with - | t <;> dsimp only at h <;> simp only [Prod.mk.injEq] at h
        · exact absurd h.2 (by simp)
        · simp only [Option.some.injEq] at h
          rw [← h.2]
          have : rest = [] := List.isEmpty_iff.mp h2
          subst this
          simp
      · rw [if_neg h2] at h
        have := ih h hmsg hline
        simp only [List.length_cons]
        omega
    · rw [if_neg h1] at h
      by_cases h3 : strStartsWith (("#EXTINF:").toList) (trim s)
      · rw [if_pos h3] at h
        rcases cur with - | t <;> dsimp only at h
        · rcases hpe : parseEXTINFLine (n + 1) (trim s) with e' | t <;> rw [hpe] at h <;>
            dsimp only at h
          · simp only [Prod.mk.injEq, Option.some.injEq] at h
            exfalso
            rw [← h.2] at hmsg
            rw [(parseEXTINFLine_err hpe).2.1] at hmsg
            exact absurd hmsg (by decide)
          · by_cases h4 : rest.isEmpty
            · rw [if_pos h4] at h
              simp at h
            · rw [if_neg h4] at h
              have := ih h hmsg hline
              simp only [List.length_cons]
              omega
        · simp only [Prod.mk.injEq, Option.some.injEq] at h
          exfalso
          rw [← h.2] at hline
          exact h1 hline
      · rw [if_neg h3] at h
        by_cases h5 : strStartsWith ['#'] (trim s)
        · rw [if_pos h5] at h
          rcases cur with - | t <;> dsimp only at h
          · simp only [Prod.mk.injEq, Option.some.injEq] at h
            exfalso
            rw [← h.2] at hmsg
            dsimp only at hmsg
            exact absurd hmsg (by decide)
          · by_cases h4 : rest.isEmpty
            · rw [if_pos h4] at h
              simp at h
            · rw [if_neg h4] at h
              have := ih h hmsg hline
              simp only [List.length_cons]
              omega
        · rw [if_neg h5] at h
          rcases cur with - | t <;> dsimp only at h
          · simp only [Prod.mk.injEq, Option.some.injEq] at h
            exfalso
            rw [← h.2] at hmsg
            dsimp only at hmsg
            exact absurd hmsg (by decide)
          · by_cases hu : t.url = none
            · rw [if_pos hu] at h
              rcases hup : urlParse (trim s) with - | u <;> rw [hup] at h <;> dsimp only at h
              · simp only [Prod.mk.injEq, Option.some.injEq] at h
                exfalso
                rw [← h.2] at hmsg
                dsimp only at hmsg
                exact absurd hmsg (by decide)
              · by_cases h4 : rest.isEmpty
                · rw [if_pos h4] at h
                  simp at h
                · rw [if_neg h4] at h
                  have := ih h hmsg hline
                  simp only [List.length_cons]
                  omega
            · rw [if_neg hu] at h
              simp only [Prod.mk.injEq, Option.some.injEq] at h
              exfalso
              rw [← h.2] at hmsg
              dsimp only at hmsg
              exact absurd hmsg (by decide)

/-! ### Claim theorems -/

/-- C2: counterexample evaluation for the code bug — on the input
`"#EXTM3U\n#EXTINF:-1,A"`, whose `#EXTINF` line is final and lacks a
trailing newline, end-of-stream is reached while a track is open, yet
`Decode` returns success with an empty playlist instead of failing with the
TrackIncomplete diagnostic. -/
theorem C2_eof_open_track_not_reported :
    decodeCore Playlist.empty (("#EXTM3U\n#EXTINF:-1,A").toList)
      = (Playlist.empty, none) := by
  decide

/-- C3: counterexample — on an input whose fourth line is unexpected
content, `Decode` fails, yet the playlist observable through the caller's
pointer holds the header attribute and the completed track parsed before
the violation. -/
theorem C3_partial_results_counterexample :
    (decodeCore Playlist.empty
        (("#EXTM3U a=\"b\"\n#EXTINF:-1,A\nhttp://x\nzzz\n").toList)).2
      = some (DecodeErr.invalid ⟨unexpectedContentMsg, 4, ("zzz").toList⟩)
    ∧ (decodeCore Playlist.empty
        (("#EXTM3U a=\"b\"\n#EXTINF:-1,A\nhttp://x\nzzz\n").toList)).1.tracks.length = 1
    ∧ (decodeCore Playlist.empty
        (("#EXTM3U a=\"b\"\n#EXTINF:-1,A\nhttp://x\nzzz\n").toList)).1.extraAttributes
      = [(("a").toList, ("b").toList)] := by
  refine ⟨by decide, by decide, by decide⟩

/-- C3 (amended): the decoder discards the caller's previous contents (the
result never depends on the initial playlist value), and the whole-buffer
`Unmarshal` returns no playlist on a failing decode — only the streaming
`Decode` leaves the partially filled playlist visible in its out-parameter. -/
theorem C3_partial_results_amended :
    ∀ (init : Playlist) (s : Str),
      decodeCore init s = decodeCore Playlist.empty s
      ∧ ∀ e, (decodeCore Playlist.empty s).2 = some e → unmarshal s = .error e := by
  intro init s
  refine ⟨rfl, ?_⟩
  intro e he
  unfold unmarshal
  rcases hd : decodeCore Playlist.empty s with ⟨p, oe⟩
  rw [hd] at he
  simp only at he
  rw [he]

/-- C3 witness: the amended statement applied at a concrete failing input. -/
theorem C3_partial_results_amended_witness :
    unmarshal (("#EXTM3U\nzzz\n").toList)
      = .error (DecodeErr.invalid ⟨unexpectedContentMsg, 2, ("zzz").toList⟩) :=
  (C3_partial_results_amended Playlist.empty (("#EXTM3U\nzzz\n").toList)).2
    _ (by decide)

/-- C4: counterexample — the header line `#EXTM3U garbage` has a non-empty
remainder that does not match the attribute-pair grammar, yet `Decode`
succeeds (the garbage is silently ignored), instead of failing with
HeaderMalformed. -/
theorem C4_header_grammar_counterexample :
    decodeCore Playlist.empty (("#EXTM3U garbage\n").toList) = (Playlist.empty, none) := by
  decide

/-- C4 (amended): for a first line `#EXTM3U` followed by remainder `r`,
`parseEXTM3ULine` fails with the HeaderMalformed diagnostic exactly when
`r` is non-empty and does not begin with a `\s` whitespace character; when
`r` begins with whitespace, any remainder is accepted and `key="value"`
pairs are extracted loosely from it. -/
theorem C4_header_grammar_amended :
    ∀ (n : Nat) (r : Str) (p : Playlist), '\n' ∉ r →
      ((parseEXTM3ULine n (("#EXTM3U").toList ++ r) p).isOk = false
        ↔ r ≠ [] ∧ isRegexSpace r.head! = false) := by
  intro n r p hnl
  unfold parseEXTM3ULine
  rw [if_pos (strStartsWith_append _ r)]
  have hdrop : ((("#EXTM3U").toList ++ r)).drop 7 = r := by
    have h7 : (("#EXTM3U").toList).length = 7 := rfl
    rw [← h7, List.drop_left]
  rw [hdrop]
  unfold headerRemainderMatch
  by_cases he : r.isEmpty
  · rw [if_pos he]
    dsimp only [Except.isOk, Except.toBool]
    constructor
    · intro h
      simp at h
    · intro h
      exact absurd (List.isEmpty_iff.mp he) h.1
  · rw [if_neg he]
    by_cases hsp : isRegexSpace r.head!
    · rw [if_pos hsp]
      have hnn : '\n' ∉ r.dropWhile isRegexSpace := fun hm => hnl (mem_dropWhile hm)
      rw [if_neg hnn]
      dsimp only [Except.isOk, Except.toBool]
      constructor
      · intro h
        simp at h
      · intro h
        rw [h.2] at hsp
        exact absurd hsp (by simp)
    · rw [if_neg hsp]
      dsimp only [Except.isOk, Except.toBool]
      constructor
      · intro _
        refine ⟨fun hr => he (by simp [hr]), by simpa using hsp⟩
      · intro _
        rfl

/-- C4 witness: at the remainder `" garbage"` (whitespace then non-pair
text) the header parse succeeds, and at the remainder `"garbage"` (no
leading whitespace) it fails. -/
theorem C4_header_grammar_amended_witness :
    ((parseEXTM3ULine 1 (("#EXTM3U").toList ++ (" garbage").toList)
        Playlist.empty).isOk = false ↔ (" garbage").toList ≠ []
          ∧ isRegexSpace ((" garbage").toList).head! = false)
    ∧ ((parseEXTM3ULine 1 (("#EXTM3U").toList ++ ("garbage").toList)
        Playlist.empty).isOk = false ↔ ("garbage").toList ≠ []
          ∧ isRegexSpace (("garbage").toList).head! = false) :=
  ⟨C4_header_grammar_amended 1 ((" garbage").toList) Playlist.empty (by decide),
    C4_header_grammar_amended 1 (("garbage").toList) Playlist.empty (by decide)⟩

/-- C5: counterexample — the input `"#EXTM3U\n#EXTINF:-1,A\n"` has two
lines and its last `#EXTINF` block is missing its URL line; `Decode` fails
with TrackIncomplete but reports line number 3, one beyond the line count 2
(the counter is incremented for the read that observes end-of-stream). -/
theorem C5_line_number_counterexample :
    decodeCore Playlist.empty (("#EXTM3U\n#EXTINF:-1,A\n").toList)
      = (Playlist.empty,
          some (DecodeErr.invalid ⟨trackIncompleteMsg, 3, []⟩))
    ∧ countNl (("#EXTM3U\n#EXTINF:-1,A\n").toList) = 2 := by
  refine ⟨by decide, by decide⟩

/-- C5 (amended): whenever `Decode` fails with the TrackIncomplete
diagnostic raised at end-of-stream (its line text is empty), the reported
line number is the newline count of the input plus one — the position of
the read that observed end-of-stream, one beyond the last line when the
input ends with a newline. -/
theorem C5_line_number_amended :
    ∀ (s : Str) (e : ErrInvalidPlaylist),
      (decodeCore Playlist.empty s).2 = some (DecodeErr.invalid e) →
      e.message = trackIncompleteMsg → e.line = [] →
      e.lineNumber = countNl s + 1 := by
  intro s e h hmsg hline
  unfold decodeCore at h
  rcases hsp : splitOnNl s with - | ⟨s0, rest⟩
  · exact absurd hsp (splitOnNl_ne_nil s)
  · rw [hsp] at h
    dsimp only at h
    by_cases h2 : rest.isEmpty
    · rw [if_pos h2] at h
      simp at h
    · rw [if_neg h2] at h
      by_cases h3 : strStartsWith (("#EXTM3U").toList) (trim s0)
      · rw [if_pos h3] at h
        rcases hph : parseEXTM3ULine 1 (trim s0) Playlist.empty with e' | p1 <;>
          rw [hph] at h <;> dsimp only at h
        · simp only [Option.some.injEq, DecodeErr.invalid.injEq] at h
          rw [← h] at hmsg
          rw [(parseEXTM3ULine_err hph).2.1] at hmsg
          exact absurd hmsg (by decide)
        · rcases hd2 : (decodeLoop rest 1 none p1).2 with - | e2 <;> rw [hd2] at h
          · simp at h
          · simp only [Option.map_some', Option.some.injEq, DecodeErr.invalid.injEq] at h
            subst h
            have hloop : decodeLoop rest 1 none p1
                = ((decodeLoop rest 1 none p1).1, some e2) := by
              rw [Prod.ext_iff]
              exact ⟨rfl, hd2⟩
            have := decodeLoop_TI_eof_lineNumber hloop hmsg hline
            have hlen := length_splitOnNl s
            rw [hsp] at hlen
            simp only [List.length_cons] at hlen
            omega
      · rw [if_neg h3] at h
        simp only [Option.some.injEq, DecodeErr.invalid.injEq] at h
        rw [← h] at hmsg
        dsimp only at hmsg
        exact absurd hmsg (by decide)

/-- C5 witness: the amended statement applied at the concrete input
`"#EXTM3U\n#EXTINF:-1,A\n"`, whose newline count is 2: the reported line
number is 3. -/
theorem C5_line_number_amended_witness :
    (3 : Nat) = countNl (("#EXTM3U\n#EXTINF:-1,A\n").toList) + 1 := by
  have h := C5_line_number_amended (("#EXTM3U\n#EXTINF:-1,A\n").toList)
    ⟨trackIncompleteMsg, 3, []⟩ (by decide) rfl rfl
  exact h

/-- C6: counterexample — the human-readable rendering of a diagnostic is
not the claimed string `invalid playlist: line <n>: "<text>": <message>`
(the code writes `invalid m3u playlist` and wraps the text in backticks),
and an input without any newline makes `Decode` fail with a bare `io.EOF`
carrying no message, line number or line text at all. -/
theorem C6_error_render_counterexample :
    ErrInvalidPlaylist.render ⟨("m").toList, 2, ("x").toList⟩
        ≠ (("invalid playlist: line 2: \"x\": m").toList)
    ∧ decodeCore Playlist.empty (("#EXTM3U").toList)
        = (Playlist.empty, some DecodeErr.eofErr) := by
  refine ⟨by decide, by decide⟩

/-- C6 (amended): every `ErrInvalidPlaylist` diagnostic carries a message,
a line number and the line text and renders exactly as
`invalid m3u playlist: line <n>: `<text>`: <message>`; every failure of
`Decode` is either such a diagnostic or the bare end-of-file error, and the
latter occurs only when the input contains no newline at all. -/
theorem C6_error_render_amended :
    (∀ e : ErrInvalidPlaylist,
      e.render = ("invalid m3u playlist: line ").toList ++ natToStr e.lineNumber
        ++ (": `").toList ++ e.line ++ ("`: ").toList ++ e.message)
    ∧ (∀ (s : Str) (e : DecodeErr), (decodeCore Playlist.empty s).2 = some e →
        (e = DecodeErr.eofErr ∧ countNl s = 0) ∨ ∃ ei, e = DecodeErr.invalid ei) := by
  constructor
  · intro e
    rfl
  · intro s e h
    unfold decodeCore at h
    rcases hsp : splitOnNl s with - | ⟨s0, rest⟩
    · exact absurd hsp (splitOnNl_ne_nil s)
    · rw [hsp] at h
      dsimp only at h
      by_cases h2 : rest.isEmpty
      · rw [if_pos h2] at h
        simp only [Option.some.injEq] at h
        subst h
        left
        refine ⟨rfl, ?_⟩
        have hlen := length_splitOnNl s
        rw [hsp, List.isEmpty_iff.mp h2] at hlen
        simp only [List.length_cons, List.length_nil] at hlen
        omega
      · rw [if_neg h2] at h
        by_cases h3 : strStartsWith (("#EXTM3U").toList) (trim s0)
        · rw [if_pos h3] at h
          rcases hph : parseEXTM3ULine 1 (trim s0) Playlist.empty with e' | p1 <;>
            rw [hph] at h <;> dsimp only at h
          · simp only [Option.some.injEq] at h
            exact Or.inr ⟨e', h.symm⟩
          · rcases hd2 : (decodeLoop rest 1 none p1).2 with - | e2 <;> rw [hd2] at h
            · simp at h
            · simp only [Option.map_some', Option.some.injEq] at h
              exact Or.inr ⟨e2, h.symm⟩
        · rw [if_neg h3] at h
          simp only [Option.some.injEq] at h
          exact Or.inr ⟨_, h.symm⟩

/-- C6 witness: the amended statement applied to a concrete diagnostic and
to the concrete newline-free input `"#EXTM3U"`. -/
theorem C6_error_render_amended_witness :
    ErrInvalidPlaylist.render ⟨("m").toList, 2, ("x").toList⟩
      = ("invalid m3u playlist: line ").toList ++ natToStr 2 ++ (": `").toList
        ++ ("x").toList ++ ("`: ").toList ++ ("m").toList
    ∧ ((DecodeErr.eofErr = DecodeErr.eofErr ∧ countNl (("#EXTM3U").toList) = 0)
        ∨ ∃ ei, DecodeErr.eofErr = DecodeErr.invalid ei) :=
  ⟨C6_error_render_amended.1 ⟨("m").toList, 2, ("x").toList⟩,
    C6_error_render_amended.2 (("#EXTM3U").toList) DecodeErr.eofErr (by decide)⟩

/-- C7: for every `#EXTINF` line that matches the EXTINF grammar,
`parseEXTINFLine` succeeds, never retains the `tvg-logo` key in the track's
extra attributes, and leaves the `tvgLogo` field null whenever every
`tvg-logo` value on the line fails URL parsing — the attribute is silently
dropped rather than reported. -/
theorem C7_tvg_logo_dropped :
    ∀ (n : Nat) (line : Str) (q : ℚ) (attrs nm : Str),
      parseExtinfShape line = some (q, attrs, nm) →
      ∃ t, parseEXTINFLine n line = .ok t
        ∧ tvgLogoKey ∉ t.extraAttributes.map Prod.fst
        ∧ ((∀ kv ∈ extractAttrs (trim attrs), kv.1 = tvgLogoKey → urlParse kv.2 = none) →
            t.tvgLogo = none) := by
  intro n line q attrs nm hs
  refine ⟨{ (extractAttrs (trim attrs)).foldl applyExtinfAttr { length := q } with
    name := trim nm }, ?_, ?_, ?_⟩
  · unfold parseEXTINFLine
    rw [hs]
  · have hbase : tvgLogoKey ∉ (({ length := q } : Track).extraAttributes.map Prod.fst) := by
      simp
    exact foldl_applyExtinfAttr_logo_key hbase
  · intro hall
    refine foldl_applyExtinfAttr_logo_none ?_ rfl
    intro v hv
    exact hall (tvgLogoKey, v) hv rfl

/-- C7 witness: on the concrete line
`#EXTINF:-1 tvg-logo="http://x/a%",A`, whose `tvg-logo` value has an
invalid percent escape, the parse succeeds with a null logo and no retained
key. -/
theorem C7_tvg_logo_dropped_witness :
    ∃ t, parseEXTINFLine 2 (("#EXTINF:-1 tvg-logo=\"http://x/a%\",A").toList) = .ok t
      ∧ tvgLogoKey ∉ t.extraAttributes.map Prod.fst
      ∧ t.tvgLogo = none := by
  obtain ⟨t, h1, h2, h3⟩ := C7_tvg_logo_dropped 2
    (("#EXTINF:-1 tvg-logo=\"http://x/a%\",A").toList)
    (-1) ((" tvg-logo=\"http://x/a%\"").toList) (("A").toList) (by decide)
  exact ⟨t, h1, h2, h3 (by decide)⟩

/-- The attribute pairs of one track, in the fixed order the Plus-mode
encoder emits them: `tvg-id`, `tvg-name`, `tvg-language`, `tvg-logo`,
`group-title` (each only if present), then the extra attributes. -/
def trackAttrPairs (t : Track) : AttrMap :=
  (match t.tvgID with | some v => [(tvgIdKey, v)] | none => []) ++
  (match t.tvgName with | some v => [(tvgNameKey, v)] | none => []) ++
  (match t.tvgLanguage with | some v => [(tvgLanguageKey, v)] | none => []) ++
  (match t.tvgLogo with | some u => [(tvgLogoKey, u.raw)] | none => []) ++
  (match t.groupTitle with | some v => [(groupTitleKey, v)] | none => []) ++
  t.extraAttributes

theorem extinfLineStr_plus (t : Track) :
    extinfLineStr fmtM3UPlus t
      = ("#EXTINF:").toList ++ fmtF0 t.length ++ pairsStr (trackAttrPairs t)
        ++ ',' :: t.name := by
  unfold extinfLineStr trackAttrPairs
  rw [if_pos rfl]
  rcases t.tvgID with - | v1 <;> rcases t.tvgName with - | v2 <;>
    rcases t.tvgLanguage with - | v3 <;> rcases t.tvgLogo with - | u4 <;>
    rcases t.groupTitle with - | v5 <;>
    simp [optQuoted, optQuotedURL, GoURL.render, pairsStr, quoteAttr, List.append_assoc]

/-- C8: in Basic mode the `#EXTINF` line is just `#EXTINF:<length>,<name>`,
independent of every attribute field of the track; in Plus mode it carries
exactly the recognized attributes in the fixed order `tvg-id, tvg-name,
tvg-language, tvg-logo, group-title` (the present ones), followed by the
extra attributes. -/
theorem C8_mode_attributes :
    (∀ t : Track, extinfLineStr fmtM3U t
      = ("#EXTINF:").toList ++ fmtF0 t.length ++ ',' :: t.name)
    ∧ (∀ t : Track, extinfLineStr fmtM3UPlus t
      = ("#EXTINF:").toList ++ fmtF0 t.length ++ pairsStr (trackAttrPairs t)
        ++ ',' :: t.name) := by
  constructor
  · intro t
    unfold extinfLineStr
    rw [if_neg (by decide)]
  · exact extinfLineStr_plus

/-- C9: on every successful decode, each track of the resulting playlist
has a non-null URL, the playlist-level extra attributes never contain the
recognized keys `url-tvg`/`x-tvg-url`, and the track-level extra attributes
never contain `tvg-id`, `tvg-name`, `tvg-language`, `tvg-logo` or
`group-title`. -/
theorem C9_decode_invariants :
    ∀ (s : Str) (p : Playlist), decodeCore Playlist.empty s = (p, none) →
      (∀ t ∈ p.tracks, t.url ≠ none)
      ∧ (∀ kv ∈ p.extraAttributes, kv.1 ≠ urlTvgKey ∧ kv.1 ≠ xTvgUrlKey)
      ∧ (∀ t ∈ p.tracks, ∀ kv ∈ t.extraAttributes,
          kv.1 ≠ tvgIdKey ∧ kv.1 ≠ tvgNameKey ∧ kv.1 ≠ tvgLanguageKey
          ∧ kv.1 ≠ tvgLogoKey ∧ kv.1 ≠ groupTitleKey) := by
  intro s p h
  have hg := decodeCore_good h
  obtain ⟨⟨-, -, -, hattrs⟩, htracks⟩ := hg
  refine ⟨?_, ?_, ?_⟩
  · intro t ht
    obtain ⟨-, u, hu, -⟩ := htracks t ht
    rw [hu]
    simp
  · intro kv hkv
    have := (hattrs kv hkv).2.2
    simp only [recognizedHeaderKeys, List.mem_cons, List.mem_singleton] at this
    push_neg at this
    exact ⟨this.1, this.2.1⟩
  · intro t ht kv hkv
    obtain ⟨⟨-, -, -, ⟨-, -, -, -, -, -, hmap⟩, -⟩, -⟩ := htracks t ht
    have := (hmap kv hkv).2.2
    simp only [recognizedTrackKeys, List.mem_cons, List.mem_singleton] at this
    push_neg at this
    exact ⟨this.1, this.2.1, this.2.2.1, this.2.2.2.1, this.2.2.2.2.1⟩

/-- C9 witness: the invariants instantiated on a concrete successful
decode carrying header attributes, track attributes and extra keys. -/
theorem C9_decode_invariants_witness :
    (∀ t ∈ (decodeCore Playlist.empty
        (("#EXTM3U url-tvg=\"http://e\" a=\"b\"\n#EXTINF:-1 tvg-id=\"c1\" zz=\"y\",A\nhttp://x\n").toList)).1.tracks,
      t.url ≠ none)
    ∧ (∀ kv ∈ (decodeCore Playlist.empty
        (("#EXTM3U url-tvg=\"http://e\" a=\"b\"\n#EXTINF:-1 tvg-id=\"c1\" zz=\"y\",A\nhttp://x\n").toList)).1.extraAttributes,
      kv.1 ≠ urlTvgKey ∧ kv.1 ≠ xTvgUrlKey) := by
  have h := C9_decode_invariants
    (("#EXTM3U url-tvg=\"http://e\" a=\"b\"\n#EXTINF:-1 tvg-id=\"c1\" zz=\"y\",A\nhttp://x\n").toList)
    (decodeCore Playlist.empty
      (("#EXTM3U url-tvg=\"http://e\" a=\"b\"\n#EXTINF:-1 tvg-id=\"c1\" zz=\"y\",A\nhttp://x\n").toList)).1
    (by decide)
  exact ⟨h.1, h.2.1⟩

/-- C10: `Decode` overwrites the caller's playlist with the empty playlist
before reading any input — its result never depends on the initial value —
and when it fails on the very first line (a missing or malformed header, or
end-of-stream on the first read) the playlist the caller observes is the
empty one. -/
theorem C10_decode_overwrites_input :
    ∀ (init : Playlist) (s : Str),
      decodeCore init s = decodeCore Playlist.empty s
      ∧ (∀ e, (decodeCore init s).2 = some (DecodeErr.invalid e) → e.lineNumber = 1 →
          (decodeCore init s).1 = Playlist.empty)
      ∧ ((decodeCore init s).2 = some DecodeErr.eofErr →
          (decodeCore init s).1 = Playlist.empty) := by
  intro init s
  refine ⟨rfl, ?_, ?_⟩
  · intro e he h1
    unfold decodeCore at he ⊢
    rcases hsp : splitOnNl s with - | ⟨s0, rest⟩
    · exact absurd hsp (splitOnNl_ne_nil s)
    · rw [hsp] at he
      dsimp only at he ⊢
      by_cases h2 : rest.isEmpty
      · rw [if_pos h2]
      · rw [if_neg h2] at he ⊢
        by_cases h3 : strStartsWith (("#EXTM3U").toList) (trim s0)
        · rw [if_pos h3] at he ⊢
          rcases hph : parseEXTM3ULine 1 (trim s0) Playlist.empty with e' | p1 <;>
            rw [hph] at he <;> dsimp only at he ⊢
          · exfalso
            rcases hd2 : (decodeLoop rest 1 none p1).2 with - | e2 <;> rw [hd2] at he
            · simp at he
            · simp only [Option.map_some', Option.some.injEq, DecodeErr.invalid.injEq] at he
              subst he
              have hloop : decodeLoop rest 1 none p1
                  = ((decodeLoop rest 1 none p1).1, some e2) := by
                rw [Prod.ext_iff]
                exact ⟨rfl, hd2⟩
              have := decodeLoop_err_lineNumber hloop
              omega
        · rw [if_neg h3]
  · intro he
    unfold decodeCore at he ⊢
    rcases hsp : splitOnNl s with - | ⟨s0, rest⟩
    · exact absurd hsp (splitOnNl_ne_nil s)
    · rw [hsp] at he
      dsimp only at he ⊢
      by_cases h2 : rest.isEmpty
      · rw [if_pos h2]
      · exfalso
        rw [if_neg h2] at he
        by_cases h3 : strStartsWith (("#EXTM3U").toList) (trim s0)
        · rw [if_pos h3] at he
          rcases hph : parseEXTM3ULine 1 (trim s0) Playlist.empty with e' | p1 <;>
            rw [hph] at he <;> dsimp only at he
          · simp at he
          · rcases hd2 : (decodeLoop rest 1 none p1).2 with - | e2 <;> rw [hd2] at he <;>
              simp at he
        · rw [if_neg h3] at he
          simp at he

/-- C10 witness: failing on the very first line with a non-empty initial
playlist, the caller observes the empty playlist. -/
theorem C10_decode_overwrites_input_witness :
    (decodeCore { tracks := [{ name := ("junk").toList }] } (("zzz\n").toList)).1
      = Playlist.empty := by
  have h := C10_decode_overwrites_input { tracks := [{ name := ("junk").toList }] }
    (("zzz\n").toList)
  exact h.2.1 ⟨mustStartMsg, 1, ("zzz").toList⟩ (by decide) rfl

/-- C1: counterexample — decoding `#EXTINF:1.5,A` yields a track of length
3/2; the Plus-mode encoder renders lengths with `%.0f` (zero decimal
places), so re-decoding its output yields length 2 and the round trip fails
on the `length` field, not merely on attribute-map ordering. -/
theorem C1_roundtrip_counterexample :
    (decodeCore Playlist.empty (("#EXTM3U\n#EXTINF:1.5,A\nhttp://x\n").toList)).2 = none
    ∧ ((decodeCore Playlist.empty
          (encodePlaylist
            (decodeCore Playlist.empty (("#EXTM3U\n#EXTINF:1.5,A\nhttp://x\n").toList)).1
            fmtM3UPlus)).1.tracks.map (fun t => t.length)
        ≠ ((decodeCore Playlist.empty
            (("#EXTM3U\n#EXTINF:1.5,A\nhttp://x\n").toList)).1.tracks.map
              (fun t => t.length))) := by
  refine ⟨by decide, by decide⟩

/-! ### Auxiliary lemmas for the round-trip theorem -/

theorem goodKey_urlTvg : GoodKeyP urlTvgKey := ⟨by decide, by decide⟩

theorem goodKey_xTvgUrl : GoodKeyP xTvgUrlKey := ⟨by decide, by decide⟩

theorem goodKey_tvgId : GoodKeyP tvgIdKey := ⟨by decide, by decide⟩

theorem goodKey_tvgName : GoodKeyP tvgNameKey := ⟨by decide, by decide⟩

theorem goodKey_tvgLanguage : GoodKeyP tvgLanguageKey := ⟨by decide, by decide⟩

theorem goodKey_tvgLogo : GoodKeyP tvgLogoKey := ⟨by decide, by decide⟩

theorem goodKey_groupTitle : GoodKeyP groupTitleKey := ⟨by decide, by decide⟩

theorem isKeyChar_not_regexSpace {c : Char} (h : isKeyChar c = true) :
    isRegexSpace c = false := by
  by_contra hs
  have hs' : isRegexSpace c = true := by
    cases hg : isRegexSpace c
    · exact absurd hg hs
    · rfl
  unfold isRegexSpace at hs'
  simp only [Bool.or_eq_true, decide_eq_true_eq] at hs'
  have hcases : c = ' ' ∨ c = '\t' ∨ c = '\n' ∨ c = Char.ofNat 12 ∨ c = '\r' := by tauto
  rcases hcases with h1 | h1 | h1 | h1 | h1 <;> (subst h1; revert h; decide)

theorem isKeyChar_ne_nl {c : Char} (h : isKeyChar c = true) : c ≠ '\n' := by
  intro hc
  subst hc
  revert h
  decide

theorem mem_pairsStr {m : AttrMap} {c : Char} (h : c ∈ pairsStr m) :
    c = ' ' ∨ c = '=' ∨ c = '"' ∨ ∃ kv ∈ m, c ∈ kv.1 ∨ c ∈ kv.2 := by
  induction m with
  | nil => simp [pairsStr] at h
  | cons kv t ih =>
    rcases kv with ⟨k, v⟩
    rw [pairsStr_cons] at h
    rcases List.mem_cons.mp h with h1 | h1
    · exact Or.inl h1
    · rcases List.mem_append.mp h1 with h2 | h2
      · exact Or.inr (Or.inr (Or.inr ⟨(k, v), List.mem_cons_self _ _, Or.inl h2⟩))
      · rcases List.mem_cons.mp h2 with h3 | h3
        · exact Or.inr (Or.inl h3)
        · rcases List.mem_cons.mp h3 with h4 | h4
          · exact Or.inr (Or.inr (Or.inl h4))
          · rcases List.mem_append.mp h4 with h5 | h5
            · exact Or.inr (Or.inr (Or.inr ⟨(k, v), List.mem_cons_self _ _, Or.inr h5⟩))
            · rcases List.mem_cons.mp h5 with h6 | h6
              · exact Or.inr (Or.inr (Or.inl h6))
              · rcases ih h6 with g | g | g | ⟨kv', hkv', g⟩
                · exact Or.inl g
                · exact Or.inr (Or.inl g)
                · exact Or.inr (Or.inr (Or.inl g))
                · exact Or.inr (Or.inr (Or.inr ⟨kv', List.mem_cons_of_mem _ hkv', g⟩))

theorem noNl_pairsStr {m : AttrMap}
    (hg : ∀ kv ∈ m, GoodKeyP kv.1 ∧ GoodValP kv.2) : '\n' ∉ pairsStr m := by
  intro h
  rcases mem_pairsStr h with h1 | h1 | h1 | ⟨kv, hkv, h1⟩
  · exact absurd h1 (by decide)
  · exact absurd h1 (by decide)
  · exact absurd h1 (by decide)
  · rcases h1 with h2 | h2
    · exact isKeyChar_ne_nl ((hg kv hkv).1.2 '\n' h2) rfl
    · exact (hg kv hkv).2.2 h2

theorem intToStr_chars {z : Int} {c : Char} (h : c ∈ intToStr z) :
    c = '-' ∨ c.isDigit = true := by
  unfold intToStr at h
  by_cases hz : z < 0
  · rw [if_pos hz] at h
    rcases List.mem_cons.mp h with h1 | h1
    · exact Or.inl h1
    · exact Or.inr (natToStr_digits c h1)
  · rw [if_neg hz] at h
    exact Or.inr (natToStr_digits c h)

theorem isDigit_ne_nl {c : Char} (h : c.isDigit = true) : c ≠ '\n' := by
  intro hc
  subst hc
  revert h
  decide

theorem noNl_intToStr (z : Int) : '\n' ∉ intToStr z := by
  intro h
  rcases intToStr_chars h with h1 | h1
  · exact absurd h1 (by decide)
  · exact isDigit_ne_nl h1 rfl

/-- The header attribute pairs, in the order the encoder writes them:
`url-tvg`, `x-tvg-url` (each only if present), then the extras. -/
def headerAttrPairs (p : Playlist) : AttrMap :=
  (match p.tvgURL with | some u => [(urlTvgKey, u.raw)] | none => []) ++
  (match p.xtvgURL with | some u => [(xTvgUrlKey, u.raw)] | none => []) ++
  p.extraAttributes

theorem headerLineStr_eq (p : Playlist) :
    headerLineStr p = ("#EXTM3U").toList ++ pairsStr (headerAttrPairs p) := by
  unfold headerLineStr headerAttrPairs
  rcases p.tvgURL with - | u1 <;> rcases p.xtvgURL with - | u2 <;>
    simp [optQuotedURL, GoURL.render, pairsStr, quoteAttr, List.append_assoc]

theorem headerAttrPairs_good {p : Playlist} (hg : GoodHeaderFields p) :
    ∀ kv ∈ headerAttrPairs p, GoodKeyP kv.1 ∧ GoodValP kv.2 := by
  obtain ⟨h1, h2, h3⟩ := hg
  intro kv hkv
  unfold headerAttrPairs at hkv
  rcases List.mem_append.mp hkv with hm | hm
  · rcases List.mem_append.mp hm with hm2 | hm2
    · rcases hu : p.tvgURL with - | u <;> rw [hu] at hm2
      · simp at hm2
      · simp only [List.mem_singleton] at hm2
        subst hm2
        rw [hu] at h1
        exact ⟨goodKey_urlTvg, h1.2⟩
    · rcases hu : p.xtvgURL with - | u <;> rw [hu] at hm2
      · simp at hm2
      · simp only [List.mem_singleton] at hm2
        subst hm2
        rw [hu] at h2
        exact ⟨goodKey_xTvgUrl, h2.2⟩
  · exact ⟨(h3.2 kv hm).1, (h3.2 kv hm).2.1⟩

theorem trackAttrPairs_good {t : Track} (hg : GoodAttrFields t) :
    ∀ kv ∈ trackAttrPairs t, GoodKeyP kv.1 ∧ GoodValP kv.2 := by
  obtain ⟨h1, h2, h3, h4, h5, h6⟩ := hg
  intro kv hkv
  unfold trackAttrPairs at hkv
  rcases List.mem_append.mp hkv with hm | hm
  · rcases List.mem_append.mp hm with hm | hm2
    · rcases List.mem_append.mp hm with hm | hm2
      · rcases List.mem_append.mp hm with hm | hm2
        · rcases List.mem_append.mp hm with hm | hm2
          · rcases hu : t.tvgID with - | v <;> rw [hu] at hm
            · simp at hm
            · simp only [List.mem_singleton] at hm
              subst hm
              rw [hu] at h1
              exact ⟨goodKey_tvgId, h1⟩
          · rcases hu : t.tvgName with - | v <;> rw [hu] at hm2
            · simp at hm2
            · simp only [List.mem_singleton] at hm2
              subst hm2
              rw [hu] at h2
              exact ⟨goodKey_tvgName, h2⟩
        · rcases hu : t.tvgLanguage with - | v <;> rw [hu] at hm2
          · simp at hm2
          · simp only [List.mem_singleton] at hm2
            subst hm2
            rw [hu] at h3
            exact ⟨goodKey_tvgLanguage, h3⟩
      · rcases hu : t.tvgLogo with - | u <;> rw [hu] at hm2
        · simp at hm2
        · simp only [List.mem_singleton] at hm2
          subst hm2
          rw [hu] at h4
          exact ⟨goodKey_tvgLogo, h4.2⟩
    · rcases hu : t.groupTitle with - | v <;> rw [hu] at hm2
      · simp at hm2
      · simp only [List.mem_singleton] at hm2
        subst hm2
        rw [hu] at h5
        exact ⟨goodKey_groupTitle, h5⟩
  · exact ⟨(h6.2 kv hm).1, (h6.2 kv hm).2.1⟩

/-- The lines `Encode` writes for one track, as a list. -/
def trackLines (t : Track) : List Str :=
  extinfLineStr fmtM3UPlus t ::
    (t.extraDirectives ++ (match t.url with | some u => [u.raw] | none => []))

theorem joinLines_cons (s : Str) (ls : List Str) :
    joinLines (s :: ls) = s ++ '\n' :: joinLines ls := by
  simp [joinLines, List.append_assoc]

theorem joinLines_append (a b : List Str) :
    joinLines (a ++ b) = joinLines a ++ joinLines b := by
  simp [joinLines]

theorem trackBlockStr_joinLines (t : Track) :
    trackBlockStr fmtM3UPlus t = joinLines (trackLines t) := by
  unfold trackBlockStr trackLines
  rw [joinLines_cons, joinLines_append]
  rcases t.url with - | u <;> simp [joinLines, GoURL.render]

theorem trackBlocks_joinLines (ts : List Track) :
    (ts.map (trackBlockStr fmtM3UPlus)).flatten
      = joinLines ((ts.map trackLines).flatten) := by
  induction ts with
  | nil => rfl
  | cons t rest ih =>
    rw [List.map_cons, List.flatten_cons, List.map_cons, List.flatten_cons,
      joinLines_append, trackBlockStr_joinLines, ih]

theorem encodePlaylist_joinLines (p : Playlist) :
    encodePlaylist p fmtM3UPlus
      = joinLines (headerLineStr p :: (p.tracks.map trackLines).flatten) := by
  unfold encodePlaylist
  rw [joinLines_cons, trackBlocks_joinLines]

theorem noNl_fmtF0 (q : ℚ) : '\n' ∉ fmtF0 q := noNl_intToStr _

theorem noNl_headerLine {p : Playlist} (hg : GoodHeaderFields p) :
    '\n' ∉ headerLineStr p := by
  rw [headerLineStr_eq]
  intro h
  rcases List.mem_append.mp h with h1 | h1
  · exact absurd h1 (by decide)
  · exact noNl_pairsStr (headerAttrPairs_good hg) h1

theorem noNl_extinfLine {t : Track} (hg : GoodTrackCore t) :
    '\n' ∉ extinfLineStr fmtM3UPlus t := by
  rw [extinfLineStr_plus]
  intro h
  rcases List.mem_append.mp h with h1 | h1
  · rcases List.mem_append.mp h1 with h2 | h2
    · rcases List.mem_append.mp h2 with h3 | h3
      · exact absurd h3 (by decide)
      · exact noNl_fmtF0 t.length h3
    · exact noNl_pairsStr
        (fun kv hkv => trackAttrPairs_good hg.2.2.2.1 kv hkv) h2
  · rcases List.mem_cons.mp h1 with h2 | h2
    · exact absurd h2 (by decide)
    · exact hg.2.2.1 h2

theorem noNl_trackLines {t : Track} (hg : GoodTrack t) :
    ∀ s ∈ trackLines t, '\n' ∉ s := by
  obtain ⟨hc, u, hu, hurl⟩ := hg
  intro s hs
  unfold trackLines at hs
  rw [hu] at hs
  rcases List.mem_cons.mp hs with h1 | h1
  · subst h1
    exact noNl_extinfLine hc
  · rcases List.mem_append.mp h1 with h2 | h2
    · exact (hc.2.2.2.2 s h2).2.2.2
    · simp only [List.mem_singleton] at h2
      subst h2
      exact hurl.2.2.2.2

theorem pairsStr_ne_nil {m : AttrMap} (h : m ≠ []) : pairsStr m ≠ [] := by
  rcases m with - | ⟨⟨k, v⟩, t⟩
  · exact absurd rfl h
  · rw [pairsStr_cons]
    simp

theorem trim_headerLine (p : Playlist) :
    trim (headerLineStr p) = headerLineStr p := by
  apply trim_eq_self
  · intro c hc
    rw [headerLineStr_eq] at hc
    have hdec : ("#EXTM3U").toList = '#' :: (("EXTM3U").toList) := by decide
    rw [hdec] at hc
    simp only [List.cons_append, List.head?_cons, Option.some.injEq] at hc
    subst hc
    decide
  · intro c hc
    rw [headerLineStr_eq] at hc
    rcases hm : headerAttrPairs p with - | ⟨kv, t⟩
    · rw [hm] at hc
      have hnil : pairsStr [] = [] := rfl
      rw [hnil, List.append_nil] at hc
      have : (("#EXTM3U").toList).getLast? = some 'U' := by decide
      rw [this] at hc
      simp only [Option.some.injEq] at hc
      subst hc
      decide
    · rw [hm] at hc
      rw [List.getLast?_append_of_ne_nil _ (pairsStr_ne_nil (by simp))] at hc
      rw [pairsStr_getLast (by simp)] at hc
      simp only [Option.some.injEq] at hc
      subst hc
      decide

theorem trim_extinfLine {t : Track} (hg : GoodTrackCore t) :
    trim (extinfLineStr fmtM3UPlus t) = extinfLineStr fmtM3UPlus t := by
  apply trim_eq_self
  · intro c hc
    rw [extinfLineStr_plus] at hc
    have hdec : ("#EXTINF:").toList = '#' :: (("EXTINF:").toList) := by decide
    rw [hdec] at hc
    simp only [List.append_assoc, List.cons_append, List.head?_cons,
      Option.some.injEq] at hc
    subst hc
    decide
  · intro c hc
    rw [extinfLineStr_plus] at hc
    rw [List.getLast?_append_of_ne_nil _ (by simp)] at hc
    rcases hnm : t.name with - | ⟨a, nm'⟩
    · rw [hnm] at hc
      simp only [List.getLast?_singleton, Option.some.injEq] at hc
      subst hc
      decide
    · rw [hnm] at hc
      rw [getLast?_cons_ne _ (by simp)] at hc
      apply getLast?_trim (l := t.name)
      rw [hg.1, hnm]
      exact hc

/-! ### Re-parsing the encoded header line -/

theorem urlParse_raw {u : GoURL} (h : urlParseOk u.raw = true) :
    urlParse u.raw = some u := by
  unfold urlParse
  rw [if_pos h]

theorem headerRemainderMatch_pairsStr {m : AttrMap}
    (hg : ∀ kv ∈ m, GoodKeyP kv.1 ∧ GoodValP kv.2) :
    headerRemainderMatch (pairsStr m) = some ((pairsStr m).tail) := by
  rcases m with - | ⟨⟨k, v⟩, t⟩
  · rfl
  · have hkv := hg (k, v) (List.mem_cons_self _ _)
    have hnl : '\n' ∉ pairsStr ((k, v) :: t) := noNl_pairsStr hg
    rw [pairsStr_cons] at hnl ⊢
    unfold headerRemainderMatch
    have h1 : (' ' :: (k ++ ('=' :: '"' :: (v ++ '"' :: pairsStr t)))).isEmpty = false := rfl
    rw [h1]
    have h2 : (' ' :: (k ++ ('=' :: '"' :: (v ++ '"' :: pairsStr t)))).head! = ' ' := rfl
    rw [h2]
    have h3 : isRegexSpace ' ' = true := by decide
    rw [h3]
    have h4 : (' ' :: (k ++ ('=' :: '"' :: (v ++ '"' :: pairsStr t)))).dropWhile isRegexSpace
        = k ++ ('=' :: '"' :: (v ++ '"' :: pairsStr t)) := by
      rw [List.dropWhile_cons, if_pos h3]
      apply dropWhile_eq_self
      intro c hc
      have hk1 : k ≠ [] := hkv.1.1
      obtain ⟨a, k2, hk2⟩ := List.exists_cons_of_ne_nil hk1
      rw [hk2, List.cons_append, List.head?_cons] at hc
      simp only [Option.some.injEq] at hc
      rw [← hc]
      exact isKeyChar_not_regexSpace
        (hkv.1.2 a (by rw [hk2]; exact List.mem_cons_self _ _))
    simp only [h4]
    have h5 : '\n' ∉ k ++ ('=' :: '"' :: (v ++ '"' :: pairsStr t)) :=
      fun hmem => hnl (List.mem_cons_of_mem _ hmem)
    simp [h5]

theorem applyHeaderAttr_urlTvg {q : Playlist} {u : GoURL}
    (h : urlParseOk u.raw = true) :
    applyHeaderAttr q (urlTvgKey, u.raw) = { q with tvgURL := some u } := by
  unfold applyHeaderAttr
  rw [if_pos rfl, urlParse_raw h]

theorem applyHeaderAttr_xTvg {q : Playlist} {u : GoURL}
    (h : urlParseOk u.raw = true) :
    applyHeaderAttr q (xTvgUrlKey, u.raw) = { q with xtvgURL := some u } := by
  unfold applyHeaderAttr
  dsimp only
  have hne : ¬ (xTvgUrlKey = urlTvgKey) := by decide
  rw [if_neg hne, if_pos rfl, urlParse_raw h]

theorem foldl_applyHeaderAttr_extras {m : AttrMap} {p : Playlist}
    (hm : ∀ kv ∈ m, kv.1 ≠ urlTvgKey ∧ kv.1 ≠ xTvgUrlKey)
    (hnodup : ((p.extraAttributes ++ m).map Prod.fst).Nodup) :
    m.foldl applyHeaderAttr p
      = { p with extraAttributes := p.extraAttributes ++ m } := by
  induction m generalizing p with
  | nil => simp
  | cons kv t ih =>
    rcases kv with ⟨k, v⟩
    have hk := hm (k, v) (List.mem_cons_self _ _)
    have hfresh : k ∉ p.extraAttributes.map Prod.fst := by
      rw [List.map_append, List.nodup_append] at hnodup
      intro hmem
      exact hnodup.2.2 hmem (by simp)
    rw [List.foldl_cons]
    have hstep : applyHeaderAttr p (k, v)
        = { p with extraAttributes := p.extraAttributes ++ [(k, v)] } := by
      unfold applyHeaderAttr
      rw [if_neg hk.1, if_neg hk.2, mapInsert_fresh v hfresh]
    rw [hstep]
    have hn2 : ((({ p with extraAttributes := p.extraAttributes ++ [(k, v)] }
        : Playlist).extraAttributes ++ t).map Prod.fst).Nodup := by
      dsimp only
      rw [List.append_assoc, List.singleton_append]
      exact hnodup
    rw [ih (fun kv hkv => hm kv (List.mem_cons_of_mem _ hkv)) hn2]
    dsimp only
    rw [List.append_assoc, List.singleton_append]

theorem parseEXTM3ULine_encode {p : Playlist} (hg : GoodHeaderFields p) :
    parseEXTM3ULine 1 (headerLineStr p) Playlist.empty
      = .ok { p with tracks := [] } := by
  have hgp : ∀ kv ∈ headerAttrPairs p, GoodKeyP kv.1 ∧ GoodValP kv.2 :=
    headerAttrPairs_good hg
  have hgp2 : ∀ kv ∈ headerAttrPairs p, GoodKeyP kv.1 ∧ '"' ∉ kv.2 :=
    fun kv hkv => ⟨(hgp kv hkv).1, (hgp kv hkv).2.1⟩
  unfold parseEXTM3ULine
  rw [headerLineStr_eq, strStartsWith_append, if_pos rfl]
  have hdrop : ((("#EXTM3U").toList) ++ pairsStr (headerAttrPairs p)).drop 7
      = pairsStr (headerAttrPairs p) := by
    have hlen7 : (("#EXTM3U").toList).length = 7 := by decide
    rw [← hlen7, List.drop_left]
  rw [hdrop, headerRemainderMatch_pairsStr hgp]
  have htp := trim_pairsStr hgp2
  have htt : trim ((pairsStr (headerAttrPairs p)).tail)
      = (pairsStr (headerAttrPairs p)).tail := by
    have hid := trim_idem (pairsStr (headerAttrPairs p))
    rw [htp] at hid
    exact hid
  have hsc : extractAttrs (trim ((pairsStr (headerAttrPairs p)).tail))
      = headerAttrPairs p := by
    rw [htt, ← htp]
    exact extractAttrs_trim_pairsStr hgp2
  dsimp only
  rw [hsc]
  obtain ⟨tu, xu, ea, tr⟩ := p
  obtain ⟨h1, h2, h3⟩ := hg
  dsimp only at h1 h2 h3 ⊢
  have hm : ∀ kv ∈ ea, kv.1 ≠ urlTvgKey ∧ kv.1 ≠ xTvgUrlKey := by
    intro kv hkv
    have hb := (h3.2 kv hkv).2.2
    simp only [recognizedHeaderKeys, List.mem_cons, List.mem_singleton,
      not_or] at hb
    exact ⟨hb.1, hb.2.1⟩
  unfold headerAttrPairs
  dsimp only
  rcases tu with - | u1 <;> rcases xu with - | u2 <;>
    simp only [List.cons_append, List.nil_append, List.singleton_append,
      List.foldl_cons, List.foldl_nil, List.append_nil]
  · rw [foldl_applyHeaderAttr_extras hm (by simpa using h3.1)]
    simp [Playlist.empty]
  · rw [applyHeaderAttr_xTvg h2.1,
      foldl_applyHeaderAttr_extras hm (by simpa using h3.1)]
    simp [Playlist.empty]
  · rw [applyHeaderAttr_urlTvg h1.1,
      foldl_applyHeaderAttr_extras hm (by simpa using h3.1)]
    simp [Playlist.empty]
  · rw [applyHeaderAttr_urlTvg h1.1, applyHeaderAttr_xTvg h2.1,
      foldl_applyHeaderAttr_extras hm (by simpa using h3.1)]
    simp [Playlist.empty]

/-! ### Re-parsing the encoded `#EXTINF` line -/

theorem applyExtinfAttr_tvgId (x : Track) (v : Str) :
    applyExtinfAttr x (tvgIdKey, v) = { x with tvgID := some v } := by
  unfold applyExtinfAttr
  dsimp only
  rw [if_pos rfl]

theorem applyExtinfAttr_tvgName (x : Track) (v : Str) :
    applyExtinfAttr x (tvgNameKey, v) = { x with tvgName := some v } := by
  unfold applyExtinfAttr
  dsimp only
  rw [if_neg (by decide), if_pos rfl]

theorem applyExtinfAttr_tvgLanguage (x : Track) (v : Str) :
    applyExtinfAttr x (tvgLanguageKey, v) = { x with tvgLanguage := some v } := by
  unfold applyExtinfAttr
  dsimp only
  rw [if_neg (by decide), if_neg (by decide), if_pos rfl]

theorem applyExtinfAttr_tvgLogo {u : GoURL} (x : Track)
    (h : urlParseOk u.raw = true) :
    applyExtinfAttr x (tvgLogoKey, u.raw) = { x with tvgLogo := some u } := by
  unfold applyExtinfAttr
  dsimp only
  rw [if_neg (by decide), if_neg (by decide), if_neg (by decide), if_pos rfl,
    urlParse_raw h]

theorem applyExtinfAttr_groupTitle (x : Track) (v : Str) :
    applyExtinfAttr x (groupTitleKey, v) = { x with groupTitle := some v } := by
  unfold applyExtinfAttr
  dsimp only
  rw [if_neg (by decide), if_neg (by decide), if_neg (by decide),
    if_neg (by decide), if_pos rfl]

theorem foldl_applyExtinfAttr_extras {m : AttrMap} {x : Track}
    (hm : ∀ kv ∈ m, kv.1 ∉ recognizedTrackKeys)
    (hnodup : ((x.extraAttributes ++ m).map Prod.fst).Nodup) :
    m.foldl applyExtinfAttr x
      = { x with extraAttributes := x.extraAttributes ++ m } := by
  induction m generalizing x with
  | nil => simp
  | cons kv t ih =>
    rcases kv with ⟨k, v⟩
    have hk := hm (k, v) (List.mem_cons_self _ _)
    simp only [recognizedTrackKeys, List.mem_cons, List.mem_singleton,
      not_or] at hk
    have hfresh : k ∉ x.extraAttributes.map Prod.fst := by
      rw [List.map_append, List.nodup_append] at hnodup
      intro hmem
      exact hnodup.2.2 hmem (by simp)
    rw [List.foldl_cons]
    have hstep : applyExtinfAttr x (k, v)
        = { x with extraAttributes := x.extraAttributes ++ [(k, v)] } := by
      unfold applyExtinfAttr
      rw [if_neg hk.1, if_neg hk.2.1, if_neg hk.2.2.1, if_neg hk.2.2.2.1,
        if_neg hk.2.2.2.2.1, mapInsert_fresh v hfresh]
    rw [hstep]
    have hn2 : ((({ x with extraAttributes := x.extraAttributes ++ [(k, v)] }
        : Track).extraAttributes ++ t).map Prod.fst).Nodup := by
      dsimp only
      rw [List.append_assoc, List.singleton_append]
      exact hnodup
    rw [ih (fun kv hkv => hm kv (List.mem_cons_of_mem _ hkv)) hn2]
    dsimp only
    rw [List.append_assoc, List.singleton_append]

theorem foldl_optPair_tvgId (x : Track) (o : Option Str) :
    (match o with | some v => [(tvgIdKey, v)] | none => []).foldl
      applyExtinfAttr x = { x with tvgID := o.or x.tvgID } := by
  rcases o with - | v
  · rfl
  · simp only [List.foldl_cons, List.foldl_nil]
    exact applyExtinfAttr_tvgId x v

theorem foldl_optPair_tvgName (x : Track) (o : Option Str) :
    (match o with | some v => [(tvgNameKey, v)] | none => []).foldl
      applyExtinfAttr x = { x with tvgName := o.or x.tvgName } := by
  rcases o with - | v
  · rfl
  · simp only [List.foldl_cons, List.foldl_nil]
    exact applyExtinfAttr_tvgName x v

theorem foldl_optPair_tvgLanguage (x : Track) (o : Option Str) :
    (match o with | some v => [(tvgLanguageKey, v)] | none => []).foldl
      applyExtinfAttr x = { x with tvgLanguage := o.or x.tvgLanguage } := by
  rcases o with - | v
  · rfl
  · simp only [List.foldl_cons, List.foldl_nil]
    exact applyExtinfAttr_tvgLanguage x v

theorem foldl_optPair_tvgLogo {o : Option GoURL} (x : Track)
    (h : GoodQuotedURL o) :
    (match o with | some u => [(tvgLogoKey, u.raw)] | none => []).foldl
      applyExtinfAttr x = { x with tvgLogo := o.or x.tvgLogo } := by
  rcases o with - | u
  · rfl
  · simp only [List.foldl_cons, List.foldl_nil]
    exact applyExtinfAttr_tvgLogo x h.1

theorem foldl_optPair_groupTitle (x : Track) (o : Option Str) :
    (match o with | some v => [(groupTitleKey, v)] | none => []).foldl
      applyExtinfAttr x = { x with groupTitle := o.or x.groupTitle } := by
  rcases o with - | v
  · rfl
  · simp only [List.foldl_cons, List.foldl_nil]
    exact applyExtinfAttr_groupTitle x v

theorem foldl_trackAttrPairs {t : Track} (hg : GoodAttrFields t) :
    (trackAttrPairs t).foldl applyExtinfAttr ({ length := t.length } : Track)
      = { t with name := [], url := none, extraDirectives := [] } := by
  obtain ⟨h1, h2, h3, h4, h5, h6⟩ := hg
  unfold trackAttrPairs
  rw [List.foldl_append, List.foldl_append, List.foldl_append,
    List.foldl_append, List.foldl_append]
  rw [foldl_optPair_tvgId, foldl_optPair_tvgName, foldl_optPair_tvgLanguage,
    foldl_optPair_tvgLogo _ h4, foldl_optPair_groupTitle]
  have hm : ∀ kv ∈ t.extraAttributes, kv.1 ∉ recognizedTrackKeys :=
    fun kv hkv => (h6.2 kv hkv).2.2
  rw [foldl_applyExtinfAttr_extras hm (by simpa using h6.1)]
  obtain ⟨L, nm, id1, tn, tl, lg, gt, u, ea, ed⟩ := t
  simp [Option.or_none]

theorem mkRat_num_of_den_one {q : ℚ} (h : q.den = 1) : mkRat q.num 1 = q := by
  rw [Rat.mkRat_one, ← Rat.num_div_den q, h]
  simp

theorem parseExtinfShape_encode {t : Track} (hg : GoodTrackCore t)
    (hlen : t.length.den = 1) :
    parseExtinfShape (extinfLineStr fmtM3UPlus t)
      = some (t.length, pairsStr (trackAttrPairs t), t.name) := by
  obtain ⟨hnm1, hnm2, hnm3, haf, hdirs⟩ := hg
  unfold parseExtinfShape
  rw [if_neg (noNl_extinfLine ⟨hnm1, hnm2, hnm3, haf, hdirs⟩)]
  rw [extinfLineStr_plus]
  have hre : ("#EXTINF:").toList ++ fmtF0 t.length ++ pairsStr (trackAttrPairs t)
        ++ ',' :: t.name
      = ("#EXTINF:").toList
        ++ (fmtF0 t.length ++ (pairsStr (trackAttrPairs t) ++ ',' :: t.name)) := by
    simp [List.append_assoc]
  rw [hre, strStartsWith_append, if_pos rfl]
  have hdrop : ((("#EXTINF:").toList)
        ++ (fmtF0 t.length ++ (pairsStr (trackAttrPairs t) ++ ',' :: t.name))).drop 8
      = fmtF0 t.length ++ (pairsStr (trackAttrPairs t) ++ ',' :: t.name) := by
    have hlen8 : (("#EXTINF:").toList).length = 8 := by decide
    rw [← hlen8, List.drop_left]
  rw [hdrop, fmtF0_int hlen]
  have htn : takeNum (intToStr t.length.num
        ++ (pairsStr (trackAttrPairs t) ++ ',' :: t.name))
      = some (mkRat t.length.num 1, pairsStr (trackAttrPairs t) ++ ',' :: t.name) := by
    rcases hm : trackAttrPairs t with - | ⟨⟨k, v⟩, rest⟩
    · have h0 : pairsStr ([] : AttrMap) = [] := rfl
      rw [h0, List.nil_append]
      exact takeNum_intToStr _ (by decide) (by decide) _
    · rw [pairsStr_cons, List.cons_append]
      exact takeNum_intToStr _ (by decide) (by decide) _
  rw [htn]
  dsimp only
  rw [splitAtLastComma_of_shape hnm2, mkRat_num_of_den_one hlen]

theorem parseEXTINFLine_encode {t : Track} (n : Nat) (hg : GoodTrackCore t)
    (hlen : t.length.den = 1) :
    parseEXTINFLine n (extinfLineStr fmtM3UPlus t)
      = .ok { t with url := none, extraDirectives := [] } := by
  have haf := hg.2.2.2.1
  unfold parseEXTINFLine
  rw [parseExtinfShape_encode hg hlen]
  dsimp only
  have hgp2 : ∀ kv ∈ trackAttrPairs t, GoodKeyP kv.1 ∧ '"' ∉ kv.2 :=
    fun kv hkv => ⟨(trackAttrPairs_good haf kv hkv).1,
      (trackAttrPairs_good haf kv hkv).2.1⟩
  rw [extractAttrs_trim_pairsStr hgp2, foldl_trackAttrPairs haf, hg.1]

/-! ### Driving the decode loop over an encoded track block -/

theorem isEmpty_false_of_ne_nil {α : Type} {l : List α} (h : l ≠ []) :
    l.isEmpty = false := by
  rcases l with - | ⟨a, t⟩
  · exact absurd rfl h
  · rfl

theorem strStartsWith_extinf_of_hash {w : Str}
    (h : strStartsWith ['#'] w = false) :
    strStartsWith (("#EXTINF:").toList) w = false := by
  rcases w with - | ⟨c, cs⟩
  · rfl
  · have hdec : ("#EXTINF:").toList = '#' :: (("EXTINF:").toList) := by decide
    rw [hdec]
    simp only [strStartsWith, Bool.and_eq_false_iff] at h ⊢
    rcases h with h | h
    · exact Or.inl h
    · exact absurd h (by simp [strStartsWith])

theorem decodeLoop_dirs {ds rest : List Str} {n : Nat} {t : Track}
    {p : Playlist} (hds : ∀ d ∈ ds, GoodDirective d) (hr : rest ≠ []) :
    decodeLoop (ds ++ rest) n (some t) p
      = decodeLoop rest (n + ds.length)
          (some { t with extraDirectives := t.extraDirectives ++ ds }) p := by
  induction ds generalizing n t with
  | nil => simp
  | cons d ds2 ih =>
    obtain ⟨hd1, hd2, hd3, hd4⟩ := hds d (List.mem_cons_self _ _)
    rw [List.cons_append]
    conv_lhs => rw [decodeLoop]
    rw [hd3]
    have hdne : ¬(d = []) := by
      intro hnil
      rw [hnil] at hd1
      exact absurd hd1 (by decide)
    rw [if_neg hdne, hd2]
    simp only [Bool.false_eq_true, if_false]
    rw [hd1]
    simp only [if_true]
    have hne2 : (ds2 ++ rest).isEmpty = false := isEmpty_false_of_ne_nil (by
      intro hnil
      exact hr (List.append_eq_nil.mp hnil).2)
    rw [hne2]
    simp only [Bool.false_eq_true, if_false]
    rw [ih (fun x hx => hds x (List.mem_cons_of_mem _ hx))]
    have harith : n + 1 + ds2.length = n + (ds2.length + 1) := by omega
    rw [harith]
    dsimp only
    rw [List.append_assoc, List.singleton_append, List.length_cons]

theorem decodeLoop_trackBlock {t : Track} {rest : List Str} {n : Nat}
    {p : Playlist} (hg : GoodTrack t) (hlen : t.length.den = 1)
    (hr : rest ≠ []) :
    decodeLoop (trackLines t ++ rest) n none p
      = decodeLoop rest (n + (trackLines t).length) none
          { p with tracks := p.tracks ++ [t] } := by
  obtain ⟨hc, u, hu, hurl⟩ := hg
  have hlines : (trackLines t).length = t.extraDirectives.length + 2 := by
    simp [trackLines, hu]
  unfold trackLines
  rw [hu]
  rw [List.cons_append]
  conv_lhs => rw [decodeLoop]
  rw [trim_extinfLine hc]
  have hne : ¬(extinfLineStr fmtM3UPlus t = []) := by
    intro hnil
    have : strStartsWith (("#EXTINF:").toList) (extinfLineStr fmtM3UPlus t)
        = true := by
      rw [extinfLineStr_plus]
      simp only [List.append_assoc]
      exact strStartsWith_append _ _
    rw [hnil] at this
    exact absurd this (by decide)
  rw [if_neg hne]
  have hsw : strStartsWith (("#EXTINF:").toList) (extinfLineStr fmtM3UPlus t)
      = true := by
    rw [extinfLineStr_plus]
    simp only [List.append_assoc]
    exact strStartsWith_append _ _
  rw [hsw]
  simp only [if_true]
  rw [parseEXTINFLine_encode (n + 1) hc hlen]
  dsimp only
  have hne2 : ((t.extraDirectives ++ [u.raw]) ++ rest).isEmpty = false :=
    isEmpty_false_of_ne_nil (by
      intro hnil
      exact hr (List.append_eq_nil.mp hnil).2)
  rw [hne2]
  simp only [Bool.false_eq_true, if_false]
  rw [List.append_assoc]
  rw [decodeLoop_dirs hc.2.2.2.2 (by simp)]
  rw [List.singleton_append]
  conv_lhs => rw [decodeLoop]
  rw [hurl.2.1]
  rw [if_neg hurl.2.2.1]
  rw [strStartsWith_extinf_of_hash hurl.2.2.2.1]
  simp only [Bool.false_eq_true, if_false]
  rw [hurl.2.2.2.1]
  simp only [Bool.false_eq_true, if_false, if_true]
  rw [urlParse_raw hurl.1]
  rw [isEmpty_false_of_ne_nil hr]
  simp only [Bool.false_eq_true, if_false]
  obtain ⟨L, nm, id1, tn, tl, lg, gt, u0, ea, ed⟩ := t
  dsimp only at hu ⊢
  subst hu
  simp only [List.nil_append, List.length_cons, List.length_append,
    List.length_singleton]
  have harith : n + 1 + ed.length + 1 = n + (ed.length + 1 + 1) := by omega
  rw [harith]
  simp

theorem decodeLoop_tracks {ts : List Track} {n : Nat} {p : Playlist}
    (hts : ∀ t ∈ ts, GoodTrack t ∧ t.length.den = 1) :
    decodeLoop ((ts.map trackLines).flatten ++ [[]]) n none p
      = ({ p with tracks := p.tracks ++ ts }, none) := by
  induction ts generalizing n p with
  | nil =>
    simp only [List.map_nil, List.flatten_nil, List.nil_append]
    conv_lhs => rw [decodeLoop]
    rw [trim_nil]
    simp
  | cons t ts2 ih =>
    have ht := hts t (List.mem_cons_self _ _)
    rw [List.map_cons, List.flatten_cons, List.append_assoc]
    rw [decodeLoop_trackBlock ht.1 ht.2 (by simp)]
    rw [ih (fun x hx => (hts x (List.mem_cons_of_mem _ hx)))]
    simp

theorem decode_encode_good {p : Playlist} (hg : GoodPlaylist p)
    (hlen : ∀ t ∈ p.tracks, t.length.den = 1) :
    decodeCore Playlist.empty (encodePlaylist p fmtM3UPlus) = (p, none) := by
  obtain ⟨hh, htr⟩ := hg
  rw [encodePlaylist_joinLines]
  unfold decodeCore
  have hnl : ∀ s ∈ headerLineStr p :: (p.tracks.map trackLines).flatten,
      '\n' ∉ s := by
    intro s hs
    rcases List.mem_cons.mp hs with h1 | h1
    · subst h1
      exact noNl_headerLine hh
    · rcases List.mem_flatten.mp h1 with ⟨ls, hls, hsl⟩
      rcases List.mem_map.mp hls with ⟨t, htm, rfl⟩
      exact noNl_trackLines (htr t htm) s hsl
  rw [splitOnNl_joinLines hnl]
  rw [List.cons_append]
  dsimp only
  have hne : ((p.tracks.map trackLines).flatten ++ [[]]).isEmpty = false :=
    isEmpty_false_of_ne_nil (by simp)
  rw [hne]
  simp only [Bool.false_eq_true, if_false]
  rw [trim_headerLine]
  have hsw : strStartsWith (("#EXTM3U").toList) (headerLineStr p) = true := by
    rw [headerLineStr_eq]
    exact strStartsWith_append _ _
  rw [hsw]
  simp only [if_true]
  rw [parseEXTM3ULine_encode hh]
  dsimp only
  rw [decodeLoop_tracks (fun t ht => ⟨htr t ht, hlen t ht⟩)]
  simp

/-- C1: amended round trip.  Whenever `Decode` accepts an input and every
decoded track length is an integer (the `%.0f` length format is lossless
exactly then), re-decoding the `M3UPlus` encoding of the decoded playlist
reproduces that playlist exactly and without error.  (For fractional
lengths the round trip fails: see the counterexample.) -/
theorem C1_roundtrip_amended {s : Str} {D : Playlist}
    (h : decodeCore Playlist.empty s = (D, none))
    (hlen : ∀ t ∈ D.tracks, t.length.den = 1) :
    decodeCore Playlist.empty (encodePlaylist D fmtM3UPlus) = (D, none) :=
  decode_encode_good (decodeCore_good h) hlen

def c1Input : Str :=
  ("#EXTM3U url-tvg=\x22http://g\x22\n#EXTINF:-1 tvg-id=\x22a1\x22,News\n#EXTGRP:x\nhttp://e/s\n").toList

def c1Decoded : Playlist := (decodeCore Playlist.empty c1Input).1

theorem C1_roundtrip_amended_witness :
    decodeCore Playlist.empty (encodePlaylist c1Decoded fmtM3UPlus)
      = (c1Decoded, none) :=
  C1_roundtrip_amended (s := c1Input) (by decide) (by decide)
